import Mathlib

/-!
Verification of the shared-memory UART transport of the proxmark3 web client.

The TypeScript core (`src/lib/pm3WebUSB.ts`) implements single-producer /
single-consumer ring buffers over a WASM heap: a `Uint8Array` view `heapU8`
and an aliased `Uint32Array` view `heapU32` of the same buffer.  We embed the
heap as a single byte list; `Uint32Array` cell accesses (`Atomics.load` /
`Atomics.store`) become little-endian four-byte reads and writes on that list.
`Uint8Array` cells always hold a byte, so every cell read reduces modulo 256.
`TypedArray.prototype.set` throws a `RangeError` when the source does not fit
in the target; throwing operations return `none` / a `true` "threw" flag.
-/

/-- `2^32`: the counter domain of the `Uint32Array` head/tail cells. -/
def U32 : Nat := 4294967296

/-- JS `(a % b) | 0` on nonnegative values below `2^31`; for `b = 0` the JS
result is `NaN | 0 = 0`. -/
def jsMod (a b : Nat) : Nat := if b = 0 then 0 else a % b

/-- Reading one cell of a `Uint8Array` view: cells always hold a byte. -/
def byteAt (h : List Nat) (i : Nat) : Nat := h.getD i 0 % 256

/-- `Atomics.load(heapU32, i)`: little-endian 32-bit read at word index `i`
of the byte heap (the `Uint32Array` view aliases the `Uint8Array` buffer). -/
def ld32 (h : List Nat) (i : Nat) : Nat :=
  byteAt h (4 * i) + 256 * byteAt h (4 * i + 1) +
    65536 * byteAt h (4 * i + 2) + 16777216 * byteAt h (4 * i + 3)

/-- `Atomics.store(heapU32, i, v)`: little-endian 32-bit store at word index
`i` of the byte heap. -/
def st32 (h : List Nat) (i v : Nat) : List Nat :=
  ((((h.set (4 * i) (v % 256)).set (4 * i + 1) (v / 256 % 256)).set
      (4 * i + 2) (v / 65536 % 256)).set (4 * i + 3) (v / 16777216 % 256))

/-- `(a - b) >>> 0` on u32 values: subtraction modulo `2^32`. -/
def sub32 (a b : Nat) : Nat := (a + U32 - b) % U32

/-- `TypedArray.prototype.subarray(i, j)` on a byte array: a (clamped) view
of the cells in `[i, j)`; each cell read is a byte. -/
def subarray (h : List Nat) (i j : Nat) : List Nat :=
  ((h.drop i).take (j - i)).map (fun b => b % 256)

/-- Writing the elements of `src` into `t` starting at position `off`
(the element copy underlying `TypedArray.prototype.set`). -/
def writeSeq (t : List Nat) (off : Nat) : List Nat → List Nat
  | [] => t
  | b :: rest => writeSeq (t.set off b) (off + 1) rest

/-- `target.set(src, off)` on typed arrays: copies `src` into `target` at
`off`, or throws a `RangeError` (`none`) when the source does not fit. -/
def taSet (t src : List Nat) (off : Nat) : Option (List Nat) :=
  if off + src.length ≤ t.length then some (writeSeq t off src) else none

/-- The `UartShared` instance state (`src/lib/pm3WebUSB.ts`).  Fields marked
`!` in TypeScript are `undefined` until `init` assigns them; `heapU8 = none`
models the unassigned heap (`heapU32` is the aliased 32-bit view of the same
buffer and is assigned together with it, so one option covers both), and
`stdinHeadIdx = none` models the unassigned stdin head index, the only two
fields the methods guard on.  The remaining index fields default to `0`,
which matches JS `Atomics` coercing an `undefined` index to `0`. -/
structure UartShared where
  heapU8 : Option (List Nat) := none
  capacity : Nat := 0
  rxHeadIdx : Nat := 0
  rxTailIdx : Nat := 0
  rxBufByteOffset : Nat := 0
  rxInitializedIdx : Option Nat := none
  txHeadIdx : Nat := 0
  txTailIdx : Nat := 0
  txBufByteOffset : Nat := 0
  stdinHeadIdx : Option Nat := none
  stdinTailIdx : Nat := 0
  stdinBufByteOffset : Nat := 0
  deriving DecidableEq, Repr

/-- `UartShared.pushStdin(char)`: single-byte push into the stdin ring.
`this.heapU8[off] = char` on a `Uint8Array` stores `char mod 256` (out of
bounds it is a silent no-op, which `List.set` also is); the byte reduction
happens on every cell read via `byteAt`. -/
def UartShared.pushStdin (st : UartShared) (char : Nat) : UartShared :=
  match st.heapU8, st.stdinHeadIdx with
  | none, _ => st
  | some _, none => st
  | some h8, some sHead =>
    let cap := st.capacity
    let head := ld32 h8 sHead
    let tail := ld32 h8 st.stdinTailIdx
    let used := sub32 head tail
    if 0 < cap - used then
      let headIdx := jsMod head cap
      let h8a := h8.set (st.stdinBufByteOffset + headIdx) char
      let head1 := (head + 1) % U32
      { st with heapU8 := some (st32 h8a sHead head1) }
    else
      st

/-- The `while (srcOff < src.length && free > 0)` loop of
`UartShared.pushRx`: copies `min(free, remaining)` bytes at `head % cap`
(split on wraparound), stores the advanced head, and re-checks the guard.
Returns the heap, the local `head`, and the final `srcOff`. -/
def UartShared.pushRxLoop (cap bufOff hIdx : Nat) (src h8 : List Nat)
    (head srcOff used : Nat) : Option (List Nat × Nat × Nat) :=
  if srcOff < src.length ∧ 0 < cap - used then
    let toWrite := min (cap - used) (src.length - srcOff)
    let headIdx := jsMod head cap
    let first := min toWrite (cap - headIdx)
    match taSet h8 (subarray src srcOff (srcOff + first)) (bufOff + headIdx) with
    | none => none
    | some h8a =>
      match (if first < toWrite then
               taSet h8a (subarray src (srcOff + first) (srcOff + toWrite)) bufOff
             else some h8a) with
      | none => none
      | some h8b =>
        UartShared.pushRxLoop cap bufOff hIdx src
          (st32 h8b hIdx ((head + toWrite) % U32))
          ((head + toWrite) % U32) (srcOff + toWrite) (used + toWrite)
  else
    some (h8, head, srcOff)
termination_by src.length - srcOff
decreasing_by omega

/-- `UartShared.pushRx(src)`: push `src` into the RX ring.  The TypeScript
method returns `undefined`; its only report is the `console.warn` carrying
the dropped-byte count when `srcOff < src.length` at the end, modeled as the
`Option Nat` component.  A `RangeError` escaping a heap copy is `none`. -/
def UartShared.pushRx (st : UartShared) (src : List Nat) :
    Option (UartShared × Option Nat) :=
  match st.heapU8 with
  | none => some (st, none)
  | some h8 =>
    let cap := st.capacity
    let head := ld32 h8 st.rxHeadIdx
    let tail := ld32 h8 st.rxTailIdx
    let used := sub32 head tail
    match UartShared.pushRxLoop cap st.rxBufByteOffset st.rxHeadIdx src h8 head 0 used with
    | none => none
    | some (h8f, _, srcOff) =>
      some ({ st with heapU8 := some h8f },
        if srcOff < src.length then some (src.length - srcOff) else none)

/-- `UartShared.popTx(maxBytes, out)`: pop up to `maxBytes` bytes from the TX
ring into `out` (split on wraparound), returning the new state, the caller's
`out` buffer, and the count.  The copy into `out` is not clamped to
`out.length`; `out.set` throws a `RangeError` (`none`) when it overflows. -/
def UartShared.popTx (st : UartShared) (maxBytes : Nat) (out : List Nat) :
    Option (UartShared × List Nat × Nat) :=
  match st.heapU8 with
  | none => some (st, out, 0)
  | some h8 =>
    let cap := st.capacity
    let head := ld32 h8 st.txHeadIdx
    let tail := ld32 h8 st.txTailIdx
    let avail0 := sub32 head tail
    if avail0 = 0 then some (st, out, 0)
    else
      let available := min avail0 maxBytes
      let tailIdx := jsMod tail cap
      let first := min available (cap - tailIdx)
      match taSet out (subarray h8 (st.txBufByteOffset + tailIdx)
            (st.txBufByteOffset + tailIdx + first)) 0 with
      | none => none
      | some out1 =>
        match (if first < available then
                 taSet out1 (subarray h8 st.txBufByteOffset
                   (st.txBufByteOffset + (available - first))) first
               else some out1) with
        | none => none
        | some out2 =>
          let tail1 := (tail + available) % U32
          some ({ st with heapU8 := some (st32 h8 st.txTailIdx tail1) }, out2, available)

/-- The consumer module namespace as `UartShared.init` sees it: each field is
the value returned by the corresponding accessor when `getExport` resolves it
(directly, under `asm`, or with a leading underscore), `none` when the
accessor is missing.  `HEAPU8` also covers the `wasmMemory.buffer` fallback. -/
structure ModuleExports where
  HEAPU8 : Option (List Nat) := none
  rb_capacity : Option Nat := none
  rx_head_ptr : Option Nat := none
  rx_tail_ptr : Option Nat := none
  rx_buf_ptr : Option Nat := none
  rx_initialized_ptr : Option Nat := none
  tx_head_ptr : Option Nat := none
  tx_tail_ptr : Option Nat := none
  tx_buf_ptr : Option Nat := none
  stdin_head_ptr : Option Nat := none
  stdin_tail_ptr : Option Nat := none
  stdin_buf_ptr : Option Nat := none
  deriving DecidableEq, Repr

/-- `UartShared.init(module)`.  Missing heap or missing `pm3_uart_rx_head_ptr`
hit an explicit check and return early.  Every later required accessor is
fetched and called inline (`getExport(...)()`), so when it is missing the
call of `undefined` throws a `TypeError`; the `Bool` result records whether
such a throw escaped, and the returned state holds the fields assigned up to
that point (pointer values are shifted `>> 2` to word indices, modeled as
division by 4).  A missing optional stdin head accessor only logs. -/
def UartShared.init (st : UartShared) (m : ModuleExports) : UartShared × Bool :=
  match m.HEAPU8 with
  | none => (st, false)
  | some h8 =>
    match m.rx_head_ptr with
    | none => (st, false)
    | some rxHead =>
      let st1 := { st with heapU8 := some h8 }
      match m.rb_capacity with
      | none => (st1, true)
      | some cap =>
        let st2 := { st1 with capacity := cap, rxHeadIdx := rxHead / 4 }
        match m.rx_tail_ptr with
        | none => (st2, true)
        | some rxTail =>
          let st3 := { st2 with rxTailIdx := rxTail / 4 }
          match m.rx_buf_ptr with
          | none => (st3, true)
          | some rxBuf =>
            let st4 := { st3 with rxBufByteOffset := rxBuf }
            let st5 := match m.rx_initialized_ptr with
              | some v => { st4 with rxInitializedIdx := some (v / 4) }
              | none => st4
            match m.tx_head_ptr with
            | none => (st5, true)
            | some txHead =>
              let st6 := { st5 with txHeadIdx := txHead / 4 }
              match m.tx_tail_ptr with
              | none => (st6, true)
              | some txTail =>
                let st7 := { st6 with txTailIdx := txTail / 4 }
                match m.tx_buf_ptr with
                | none => (st7, true)
                | some txBuf =>
                  let st8 := { st7 with txBufByteOffset := txBuf }
                  match m.stdin_head_ptr with
                  | none => (st8, false)
                  | some sHead =>
                    let st9 := { st8 with stdinHeadIdx := some (sHead / 4) }
                    match m.stdin_tail_ptr with
                    | none => (st9, true)
                    | some sTail =>
                      let st10 := { st9 with stdinTailIdx := sTail / 4 }
                      match m.stdin_buf_ptr with
                      | none => (st10, true)
                      | some sBuf =>
                        ({ st10 with stdinBufByteOffset := sBuf }, false)

/-- `sendCommand` (`src/hooks/useProxmarkWasm.ts`): when the runtime is ready,
forwards each UTF-16 code unit of the command via `pushStdin`, then a
newline (`charCodeAt` value 10). -/
def sendCommand (isReady : Bool) (st : UartShared) (command : List Nat) : UartShared :=
  if isReady then (command.foldl UartShared.pushStdin st).pushStdin 10 else st

/-- `sendInput` (`src/hooks/useProxmarkWasm.ts`): when the runtime is ready,
forwards a single UTF-16 code unit via `pushStdin`. -/
def sendInput (isReady : Bool) (st : UartShared) (char : Nat) : UartShared :=
  if isReady then st.pushStdin char else st

/-- The mutable fields of the `PM3WebUSB` class; handles are opaque ids. -/
structure PM3State where
  device : Option Nat := none
  reader : Option Nat := none
  writer : Option Nat := none
  isConnected : Bool := false
  readLoopRunning : Bool := false
  txLoopRunning : Bool := false
  deriving DecidableEq, Repr

/-- Whether each awaited release call in `disconnect` rejects (throws). -/
structure DisconnectEnv where
  readerCancelThrows : Bool
  writerCloseThrows : Bool
  deviceCloseThrows : Bool
  deriving DecidableEq, Repr

/-- Outcome of `disconnect`: final field state and whether an exception
escaped to the caller. -/
structure DisconnectResult where
  state : PM3State
  threw : Bool
  deriving DecidableEq, Repr

/-- The `if (this.device) { await this.device.close(); this.device = null; }`
step of `PM3WebUSB.disconnect`. -/
def PM3WebUSB.disconnectDeviceStep (env : DisconnectEnv) (s : PM3State) :
    DisconnectResult :=
  match s.device with
  | some _ =>
    if env.deviceCloseThrows then ⟨s, true⟩ else ⟨{ s with device := none }, false⟩
  | none => ⟨s, false⟩

/-- The `if (this.writer) { await this.writer.close(); this.writer = null; }`
step of `PM3WebUSB.disconnect`, followed by the device step. -/
def PM3WebUSB.disconnectWriterStep (env : DisconnectEnv) (s : PM3State) :
    DisconnectResult :=
  match s.writer with
  | some _ =>
    if env.writerCloseThrows then ⟨s, true⟩
    else PM3WebUSB.disconnectDeviceStep env { s with writer := none }
  | none => PM3WebUSB.disconnectDeviceStep env s

/-- `PM3WebUSB.disconnect()`: clears both loop flags and `isConnected`, then
sequentially awaits `reader.cancel()`, `writer.close()`, `device.close()`,
nulling each handle after its await.  There is no try/finally: a rejected
await propagates and the later steps do not run. -/
def PM3WebUSB.disconnect (env : DisconnectEnv) (s0 : PM3State) : DisconnectResult :=
  let s := { s0 with readLoopRunning := false, txLoopRunning := false,
                     isConnected := false }
  match s.reader with
  | some _ =>
    if env.readerCancelThrows then ⟨s, true⟩
    else PM3WebUSB.disconnectWriterStep env { s with reader := none }
  | none => PM3WebUSB.disconnectWriterStep env s

/-- Environment of one `PM3WebUSB.connect()` call: platform capability,
device-selection outcome (`none`: `requestPort` threw, i.e. the user
cancelled), whether `open` throws, whether `window.Module` with `HEAPU8` and
the rx head accessor is present, and whether `uartShared.init` throws. -/
structure ConnectEnv where
  serialAvailable : Bool
  requestPortResult : Option Nat
  openThrows : Bool
  moduleReady : Bool
  initThrows : Bool
  deriving DecidableEq, Repr

/-- Outcome of `connect`: final field state, the returned boolean (the
method never throws: all awaits sit in a catch-all), and whether each pump
loop was launched. -/
structure ConnectResult where
  state : PM3State
  returned : Bool
  readLoopStarted : Bool
  txLoopStarted : Bool
  deriving DecidableEq, Repr

/-- `PM3WebUSB.connect()`: checks `'serial' in navigator`, requests a port,
opens it at 115200 baud, sets the connected and loop flags, initializes the
shared ring buffers when the WASM runtime is ready, and starts both loops.
Any throw inside the try lands in the catch and returns `false`. -/
def PM3WebUSB.connect (env : ConnectEnv) (s : PM3State) : ConnectResult :=
  if env.serialAvailable = false then ⟨s, false, false, false⟩
  else
    match env.requestPortResult with
    | none => ⟨s, false, false, false⟩
    | some dev =>
      let s1 := { s with device := some dev }
      if env.openThrows then ⟨s1, false, false, false⟩
      else
        let s2 := { s1 with isConnected := true, readLoopRunning := true,
                            txLoopRunning := true }
        if env.moduleReady && env.initThrows then ⟨s2, false, false, false⟩
        else ⟨s2, true, true, true⟩

/-- Well-formed binding of one ring channel at head word index `H`, tail word
index `T`, buffer byte offset `B`: positive power-of-two capacity below
`2^31` (`| 0` is then the identity on all computed indices), counter cells
and buffer inside the heap, counter cells disjoint from each other and from
the buffer region, and at most `cap` bytes queued. -/
def ChanOk (h8 : List Nat) (cap H T B : Nat) : Prop :=
  0 < cap ∧ cap < 2147483648 ∧ U32 % cap = 0 ∧
  4 * H + 4 ≤ h8.length ∧ 4 * T + 4 ≤ h8.length ∧ B + cap ≤ h8.length ∧
  H ≠ T ∧
  (4 * H + 4 ≤ B ∨ B + cap ≤ 4 * H) ∧
  (4 * T + 4 ≤ B ∨ B + cap ≤ 4 * T) ∧
  sub32 (ld32 h8 H) (ld32 h8 T) ≤ cap

instance (h8 : List Nat) (cap H T B : Nat) : Decidable (ChanOk h8 cap H T B) := by
  unfold ChanOk
  infer_instance

/-- The bytes logically queued in a channel, oldest first: the
`(head − tail) mod 2^32` buffer cells starting at `tail mod cap`. -/
def chanQ (h8 : List Nat) (cap H T B : Nat) : List Nat :=
  (List.range (sub32 (ld32 h8 H) (ld32 h8 T))).map
    (fun i => byteAt h8 (B + (ld32 h8 T + i) % cap))

/-- One operation of a push/pop sequence on a single channel. -/
inductive ChanOp where
  | push (bytes : List Nat)
  | pop (maxBytes : Nat)
  deriving DecidableEq, Repr

/-- Whether an operation is a push. -/
def ChanOp.isPush : ChanOp → Bool
  | .push _ => true
  | .pop _ => false

/-- Whether a push operation carries genuine byte values (a `Uint8Array`
argument can only hold values below 256). -/
def ChanOp.bytesOk : ChanOp → Bool
  | .push bs => bs.all (fun b => b < 256)
  | .pop _ => true

/-- The number of dropped bytes reported by a `pushRx` warning. -/
def droppedLen : Option Nat → Nat
  | some d => d
  | none => 0

/-- Run a sequence of operations against a state whose RX and TX descriptors
denote the same channel, collecting the concatenation of the bytes each push
accepted (its input minus the warned drop count) and of the bytes each pop
returned (the first `n` cells of its scratch buffer, a fresh zeroed buffer of
length `maxBytes` exactly as the TX pump loop passes `popTx(tmp.length, tmp)`). -/
def runOps (st : UartShared) : List ChanOp → Option (UartShared × List Nat × List Nat)
  | [] => some (st, [], [])
  | ChanOp.push bs :: rest =>
    match st.pushRx bs with
    | none => none
    | some (st1, warn) =>
      match runOps st1 rest with
      | none => none
      | some (st2, acc, popped) =>
        some (st2, bs.take (bs.length - droppedLen warn) ++ acc, popped)
  | ChanOp.pop m :: rest =>
    match st.popTx m (List.replicate m 0) with
    | none => none
    | some (st1, out1, n) =>
      match runOps st1 rest with
      | none => none
      | some (st2, acc, popped) => some (st2, acc, out1.take n ++ popped)

/-- Concatenation of all push inputs of a sequence. -/
def pushConcat : List ChanOp → List Nat
  | [] => []
  | ChanOp.push bs :: rest => bs ++ pushConcat rest
  | ChanOp.pop _ :: rest => pushConcat rest

/-! ### Concrete states used to instantiate the theorems -/

/-- A zeroed 12-byte heap: two counter cells and a 4-byte ring. -/
def wHeap : List Nat := List.replicate 12 0

/-- A bound single-channel state (RX and TX descriptors denote the same
channel): capacity 4, head cell at word 0, tail cell at word 1, ring at
bytes 8..11. -/
def wUart : UartShared := ⟨some wHeap, 4, 0, 1, 8, none, 0, 1, 8, none, 0, 0⟩

/-- A push/pop sequence whose running totals wrap the 4-byte ring. -/
def wOps : List ChanOp :=
  [ChanOp.push [10, 20], ChanOp.pop 1, ChanOp.push [30, 40], ChanOp.pop 4]

/-- A heap whose TX channel (head cell word 0, tail cell word 1, ring at
bytes 8..11) holds two queued bytes 10, 11. -/
def cexPopHeap : List Nat := [2, 0, 0, 0, 0, 0, 0, 0, 10, 11, 12, 13]

/-- The bound state over `cexPopHeap`. -/
def cexPopSt : UartShared := ⟨some cexPopHeap, 4, 0, 1, 8, none, 0, 1, 8, none, 0, 0⟩

/-- A zeroed 16-byte heap for a capacity-8 channel. -/
def cexPushHeap : List Nat := List.replicate 16 0

/-- A bound capacity-8 single-channel state over `cexPushHeap`. -/
def cexPushSt : UartShared := ⟨some cexPushHeap, 8, 0, 1, 8, none, 0, 1, 8, none, 0, 0⟩

/-- A zeroed 36-byte heap: six counter cells and three 4-byte rings. -/
def wFullHeap : List Nat := List.replicate 36 0

/-- A fully bound state with three disjoint channels: RX head/tail at words
0/1 and ring at 24, TX at words 2/3 and ring at 28, stdin at words 4/5 and
ring at 32. -/
def wFull : UartShared := ⟨some wFullHeap, 4, 0, 1, 24, none, 2, 3, 28, some 4, 5, 32⟩

/-- The state of a `UartShared` instance before `init` ran. -/
def freshUart : UartShared := ⟨none, 0, 0, 0, 0, none, 0, 0, 0, none, 0, 0⟩

/-- A bound state whose stdin head index was never assigned (the optional
stdin accessors were missing at `init` time). -/
def noStdinSt : UartShared := ⟨some [1, 2, 3, 4], 4, 0, 0, 0, none, 0, 0, 0, none, 0, 0⟩

/-- A module namespace with every accessor present except the capacity
accessor. -/
def mNoCap : ModuleExports :=
  ⟨some [0, 0, 0, 0], none, some 0, some 4, some 8, none, some 12, some 16, some 20,
    some 24, some 28, some 32⟩

/-- A module namespace with all required accessors present and the optional
stdin triple missing. -/
def mNoStdin : ModuleExports :=
  ⟨some (List.replicate 36 0), some 4, some 0, some 4, some 24, none, some 8, some 12,
    some 28, none, none, none⟩

/-- A module namespace exposing no heap at all. -/
def mNoHeap : ModuleExports :=
  ⟨none, none, none, none, none, none, none, none, none, none, none, none⟩

/-- A `PM3WebUSB` instance with open device, reader and writer, both pump
loops running. -/
def wPM3 : PM3State := ⟨some 1, some 2, some 3, true, true, true⟩

/-- A fresh disconnected `PM3WebUSB` instance. -/
def wPM3Idle : PM3State := ⟨none, none, none, false, false, false⟩

/-- A teardown in which `reader.cancel()` rejects. -/
def wEnvThrow : DisconnectEnv := ⟨true, false, false⟩

/-- A teardown in which every release call succeeds. -/
def wEnvOk : DisconnectEnv := ⟨false, false, false⟩

/-- A connection attempt in which the user dismisses the device chooser
(`requestPort` rejects). -/
def wConnEnvCancel : ConnectEnv := ⟨true, none, false, false, false⟩

/-! ### Cell-level lemmas for the heap primitives -/

theorem getD_set_self {i : Nat} {l : List Nat} (h : i < l.length) (v : Nat) :
    (l.set i v).getD i 0 = v := by
  simp [List.getD_eq_getElem?_getD, List.getElem?_set_self h]

theorem getD_set_ne {i j : Nat} (hij : i ≠ j) (l : List Nat) (v : Nat) :
    (l.set i v).getD j 0 = l.getD j 0 := by
  simp [List.getD_eq_getElem?_getD, List.getElem?_set_ne hij]

theorem getElem_eq_getD {k : Nat} {l : List Nat} (h : k < l.length) :
    l[k] = l.getD k 0 := by
  simp [List.getD_eq_getElem?_getD, List.getElem?_eq_getElem h]

theorem list_ext_getD {l1 l2 : List Nat} (hlen : l1.length = l2.length)
    (h : ∀ k, k < l1.length → l1.getD k 0 = l2.getD k 0) : l1 = l2 := by
  refine List.ext_getElem hlen ?_
  intro n h1 h2
  rw [getElem_eq_getD h1, getElem_eq_getD h2]
  exact h n h1

theorem byteAt_lt (h : List Nat) (i : Nat) : byteAt h i < 256 :=
  Nat.mod_lt _ (by omega)

theorem byteAt_set_ne {i j : Nat} (hij : i ≠ j) (h : List Nat) (v : Nat) :
    byteAt (h.set i v) j = byteAt h j := by
  unfold byteAt
  rw [getD_set_ne hij]

theorem byteAt_set_self {i : Nat} {h : List Nat} (hi : i < h.length) (v : Nat) :
    byteAt (h.set i v) i = v % 256 := by
  unfold byteAt
  rw [getD_set_self hi]

theorem length_st32 (h : List Nat) (i v : Nat) : (st32 h i v).length = h.length := by
  simp [st32]

theorem getD_st32_outside {i k : Nat} (hk : k < 4 * i ∨ 4 * i + 4 ≤ k)
    (h : List Nat) (v : Nat) : (st32 h i v).getD k 0 = h.getD k 0 := by
  unfold st32
  rw [getD_set_ne (show 4 * i + 3 ≠ k by omega),
      getD_set_ne (show 4 * i + 2 ≠ k by omega),
      getD_set_ne (show 4 * i + 1 ≠ k by omega),
      getD_set_ne (show 4 * i ≠ k by omega)]

theorem byteAt_st32_outside {i k : Nat} (hk : k < 4 * i ∨ 4 * i + 4 ≤ k)
    (h : List Nat) (v : Nat) : byteAt (st32 h i v) k = byteAt h k := by
  unfold byteAt
  rw [getD_st32_outside hk]

theorem ld32_lt (h : List Nat) (i : Nat) : ld32 h i < U32 := by
  have b0 := byteAt_lt h (4 * i)
  have b1 := byteAt_lt h (4 * i + 1)
  have b2 := byteAt_lt h (4 * i + 2)
  have b3 := byteAt_lt h (4 * i + 3)
  unfold ld32 U32
  omega

theorem ld32_st32_ne {i j : Nat} (hij : i ≠ j) (h : List Nat) (v : Nat) :
    ld32 (st32 h i v) j = ld32 h j := by
  unfold ld32
  rw [byteAt_st32_outside (show 4 * j < 4 * i ∨ 4 * i + 4 ≤ 4 * j by omega),
      byteAt_st32_outside (show 4 * j + 1 < 4 * i ∨ 4 * i + 4 ≤ 4 * j + 1 by omega),
      byteAt_st32_outside (show 4 * j + 2 < 4 * i ∨ 4 * i + 4 ≤ 4 * j + 2 by omega),
      byteAt_st32_outside (show 4 * j + 3 < 4 * i ∨ 4 * i + 4 ≤ 4 * j + 3 by omega)]

theorem ld32_st32_self {i : Nat} {h : List Nat} (hlen : 4 * i + 4 ≤ h.length)
    {v : Nat} (hv : v < U32) : ld32 (st32 h i v) i = v := by
  have g0 : (st32 h i v).getD (4 * i) 0 = v % 256 := by
    unfold st32
    rw [getD_set_ne (show 4 * i + 3 ≠ 4 * i by omega),
        getD_set_ne (show 4 * i + 2 ≠ 4 * i by omega),
        getD_set_ne (show 4 * i + 1 ≠ 4 * i by omega),
        getD_set_self (show 4 * i < h.length by omega)]
  have g1 : (st32 h i v).getD (4 * i + 1) 0 = v / 256 % 256 := by
    unfold st32
    rw [getD_set_ne (show 4 * i + 3 ≠ 4 * i + 1 by omega),
        getD_set_ne (show 4 * i + 2 ≠ 4 * i + 1 by omega),
        getD_set_self (by simp [List.length_set]; omega)]
  have g2 : (st32 h i v).getD (4 * i + 2) 0 = v / 65536 % 256 := by
    unfold st32
    rw [getD_set_ne (show 4 * i + 3 ≠ 4 * i + 2 by omega),
        getD_set_self (by simp [List.length_set]; omega)]
  have g3 : (st32 h i v).getD (4 * i + 3) 0 = v / 16777216 % 256 := by
    unfold st32
    rw [getD_set_self (by simp [List.length_set]; omega)]
  unfold U32 at hv
  simp only [ld32, byteAt, g0, g1, g2, g3]
  omega

/-! ### Lemmas about block writes and views -/

theorem writeSeq_length (src : List Nat) : ∀ (t : List Nat) (off : Nat),
    (writeSeq t off src).length = t.length := by
  induction src with
  | nil => intro t off; rfl
  | cons b rest ih =>
    intro t off
    simp only [writeSeq]
    rw [ih]
    simp

theorem getD_writeSeq_outside (src : List Nat) : ∀ (t : List Nat) (off k : Nat),
    (k < off ∨ off + src.length ≤ k) →
    (writeSeq t off src).getD k 0 = t.getD k 0 := by
  induction src with
  | nil => intro t off k _; rfl
  | cons b rest ih =>
    intro t off k hk
    have hl : (b :: rest).length = rest.length + 1 := rfl
    rw [hl] at hk
    simp only [writeSeq]
    rw [ih (t.set off b) (off + 1) k (by omega)]
    exact getD_set_ne (by omega) t b

theorem getD_writeSeq_inside (src : List Nat) : ∀ (t : List Nat) (off n : Nat),
    n < src.length → off + n < t.length →
    (writeSeq t off src).getD (off + n) 0 = src.getD n 0 := by
  induction src with
  | nil => intro t off n hn _; simp at hn
  | cons b rest ih =>
    intro t off n hn hlen
    have hl : (b :: rest).length = rest.length + 1 := rfl
    rw [hl] at hn
    match n with
    | 0 =>
      simp only [writeSeq]
      rw [getD_writeSeq_outside rest (t.set off b) (off + 1) (off + 0) (by omega)]
      have : off + 0 = off := by omega
      rw [this, getD_set_self (by omega) b]
      rfl
    | Nat.succ m =>
      simp only [writeSeq]
      have e : off + (m + 1) = (off + 1) + m := by omega
      rw [e, ih (t.set off b) (off + 1) m (by omega) (by simp [List.length_set]; omega)]
      rfl

theorem writeSeq_append (a b : List Nat) : ∀ (t : List Nat) (off : Nat),
    writeSeq t off (a ++ b) = writeSeq (writeSeq t off a) (off + a.length) b := by
  induction a with
  | nil => intro t off; simp [writeSeq]
  | cons x rest ih =>
    intro t off
    rw [show (x :: rest) ++ b = x :: (rest ++ b) from rfl]
    simp only [writeSeq]
    rw [ih]
    have e : off + (x :: rest).length = off + 1 + rest.length := by
      simp [List.length_cons]
      omega
    rw [e]

theorem subarray_length {i j : Nat} {h : List Nat} (hj : j ≤ h.length) (hij : i ≤ j) :
    (subarray h i j).length = j - i := by
  unfold subarray
  simp only [List.length_map, List.length_take, List.length_drop]
  omega

theorem getD_subarray {i j k : Nat} {h : List Nat} (hk : k < j - i)
    (hlen : i + k < h.length) : (subarray h i j).getD k 0 = byteAt h (i + k) := by
  have hlt : k < (((h.drop i).take (j - i)).map (fun b => b % 256)).length := by
    simp only [List.length_map, List.length_take, List.length_drop]
    omega
  unfold subarray
  rw [← getElem_eq_getD hlt, List.getElem_map, List.getElem_take, List.getElem_drop]
  unfold byteAt
  rw [getElem_eq_getD hlen]

/-! ### Arithmetic of the u32 counters -/

theorem sub32_lt (a b : Nat) : sub32 a b < U32 := by
  unfold sub32 U32
  omega

theorem sub32_add_right {a b w : Nat} (ha : a < U32) (hb : b < U32)
    (h : sub32 a b + w < U32) : sub32 ((a + w) % U32) b = sub32 a b + w := by
  unfold sub32 U32 at *
  omega

theorem sub32_tail_add {a b n : Nat} (ha : a < U32) (hb : b < U32)
    (h : n ≤ sub32 a b) : sub32 a ((b + n) % U32) = sub32 a b - n := by
  unfold sub32 U32 at *
  omega

theorem head_decomp {a b : Nat} (ha : a < U32) (hb : b < U32) :
    (b + sub32 a b) % U32 = a := by
  unfold sub32 U32 at *
  omega

theorem mod_U32_mod_cap {cap : Nat} (x : Nat) (hdvd : U32 % cap = 0) :
    x % U32 % cap = x % cap :=
  Nat.mod_mod_of_dvd x (Nat.dvd_of_mod_eq_zero hdvd)

theorem add_mod_U32_mod_cap {cap : Nat} (x j : Nat) (hdvd : U32 % cap = 0) :
    (x % U32 + j) % cap = (x + j) % cap := by
  conv_lhs => rw [Nat.add_mod]
  conv_rhs => rw [Nat.add_mod]
  rw [mod_U32_mod_cap x hdvd]

theorem addModCapInj {cap t a b : Nat} (ha : a < cap) (hb : b < cap)
    (h : (t + a) % cap = (t + b) % cap) : a = b := by
  have h1 : t + a ≡ t + b [MOD cap] := h
  have h2 : a ≡ b [MOD cap] := Nat.ModEq.add_left_cancel (Nat.ModEq.refl t) h1
  have h3 : a % cap = b % cap := h2
  rwa [Nat.mod_eq_of_lt ha, Nat.mod_eq_of_lt hb] at h3

/-! ### Further getD helpers -/

theorem getD_range_map (f : Nat → Nat) {n k : Nat} (hk : k < n) :
    ((List.range n).map f).getD k 0 = f k := by
  have hlt : k < ((List.range n).map f).length := by simp [hk]
  rw [← getElem_eq_getD hlt, List.getElem_map, List.getElem_range]

theorem getD_map_mod {l : List Nat} {n : Nat} (hn : n < l.length) :
    (l.map (fun b => b % 256)).getD n 0 = l.getD n 0 % 256 := by
  have hlt : n < (l.map (fun b => b % 256)).length := by simp [hn]
  rw [← getElem_eq_getD hlt, List.getElem_map, getElem_eq_getD hn]

theorem getD_take {l : List Nat} {j n : Nat} (h1 : n < j) (h2 : n < l.length) :
    (l.take j).getD n 0 = l.getD n 0 := by
  have hlt : n < (l.take j).length := by
    simp only [List.length_take]
    omega
  rw [← getElem_eq_getD hlt, List.getElem_take, getElem_eq_getD h2]

theorem length_chanQ (h8 : List Nat) (cap H T B : Nat) :
    (chanQ h8 cap H T B).length = sub32 (ld32 h8 H) (ld32 h8 T) := by
  simp [chanQ]

theorem getD_chanQ {h8 : List Nat} {cap H T B k : Nat}
    (hk : k < sub32 (ld32 h8 H) (ld32 h8 T)) :
    (chanQ h8 cap H T B).getD k 0 = byteAt h8 (B + (ld32 h8 T + k) % cap) := by
  unfold chanQ
  exact getD_range_map _ hk

/-! ### Unfolding the pushRx loop -/

theorem pushRxLoop_exit {cap bufOff hIdx : Nat} {src h8 : List Nat}
    {head srcOff used : Nat} (h : ¬(srcOff < src.length ∧ 0 < cap - used)) :
    UartShared.pushRxLoop cap bufOff hIdx src h8 head srcOff used
      = some (h8, head, srcOff) := by
  rw [UartShared.pushRxLoop.eq_def, if_neg h]

theorem pushRxLoop_step {cap bufOff hIdx : Nat} {src h8 : List Nat}
    {head srcOff used : Nat} (h : srcOff < src.length ∧ 0 < cap - used) :
    UartShared.pushRxLoop cap bufOff hIdx src h8 head srcOff used =
      match taSet h8 (subarray src srcOff
          (srcOff + min (min (cap - used) (src.length - srcOff)) (cap - jsMod head cap)))
          (bufOff + jsMod head cap) with
      | none => none
      | some h8a =>
        match (if min (min (cap - used) (src.length - srcOff)) (cap - jsMod head cap)
                  < min (cap - used) (src.length - srcOff) then
                 taSet h8a (subarray src
                   (srcOff + min (min (cap - used) (src.length - srcOff)) (cap - jsMod head cap))
                   (srcOff + min (cap - used) (src.length - srcOff))) bufOff
               else some h8a) with
        | none => none
        | some h8b =>
          UartShared.pushRxLoop cap bufOff hIdx src
            (st32 h8b hIdx ((head + min (cap - used) (src.length - srcOff)) % U32))
            ((head + min (cap - used) (src.length - srcOff)) % U32)
            (srcOff + min (cap - used) (src.length - srcOff))
            (used + min (cap - used) (src.length - srcOff)) := by
  rw [UartShared.pushRxLoop.eq_def, if_pos h]

/-! ### Effect of one ring-buffer block copy -/

theorem ringCopy_spec (h8 src : List Nat) (cap H B hd srcOff w : Nat)
    (capPos : 0 < cap) (hB : B + cap ≤ h8.length)
    (hHB : 4 * H + 4 ≤ B ∨ B + cap ≤ 4 * H) (hH : 4 * H + 4 ≤ h8.length)
    (hw : 0 < w) (hwcap : w ≤ cap) (hsrc : srcOff + w ≤ src.length) (hhd : hd < U32) :
    ∃ h8a h8b,
      taSet h8 (subarray src srcOff (srcOff + min w (cap - hd % cap))) (B + hd % cap)
          = some h8a
      ∧ (if min w (cap - hd % cap) < w then
           taSet h8a (subarray src (srcOff + min w (cap - hd % cap)) (srcOff + w)) B
         else some h8a) = some h8b
      ∧ (st32 h8b H ((hd + w) % U32)).length = h8.length
      ∧ ld32 (st32 h8b H ((hd + w) % U32)) H = (hd + w) % U32
      ∧ (∀ j, j < w →
          byteAt (st32 h8b H ((hd + w) % U32)) (B + (hd + j) % cap)
            = byteAt src (srcOff + j))
      ∧ (∀ p, p < cap → (∀ j, j < w → p ≠ (hd + j) % cap) →
          byteAt (st32 h8b H ((hd + w) % U32)) (B + p) = byteAt h8 (B + p))
      ∧ (∀ k, (k < B ∨ B + cap ≤ k) → (k < 4 * H ∨ 4 * H + 4 ≤ k) →
          byteAt (st32 h8b H ((hd + w) % U32)) k = byteAt h8 k) := by
  have hhi : hd % cap < cap := Nat.mod_lt hd capPos
  set first := min w (cap - hd % cap) with hfirstdef
  have hf1 : 0 < first := by omega
  have hf2 : first ≤ w := by omega
  have hf3 : first ≤ cap - hd % cap := by omega
  have hseg1 : (subarray src srcOff (srcOff + first)).length = first := by
    rw [subarray_length (by omega) (by omega)]
    omega
  have ht1 : taSet h8 (subarray src srcOff (srcOff + first)) (B + hd % cap)
      = some (writeSeq h8 (B + hd % cap) (subarray src srcOff (srcOff + first))) := by
    unfold taSet
    rw [if_pos (by rw [hseg1]; omega)]
  set h8a := writeSeq h8 (B + hd % cap) (subarray src srcOff (srcOff + first)) with h8adef
  have hlena : h8a.length = h8.length := writeSeq_length _ _ _
  have hseg2 : (subarray src (srcOff + first) (srcOff + w)).length = w - first := by
    rw [subarray_length (by omega) (by omega)]
    omega
  set h8b := if first < w then
      writeSeq h8a B (subarray src (srcOff + first) (srcOff + w)) else h8a with h8bdef
  have hlenb : h8b.length = h8.length := by
    rw [h8bdef]
    by_cases hwrap : first < w
    · rw [if_pos hwrap, writeSeq_length, hlena]
    · rw [if_neg hwrap, hlena]
  have ht2 : (if first < w then
        taSet h8a (subarray src (srcOff + first) (srcOff + w)) B
      else some h8a) = some h8b := by
    rw [h8bdef]
    by_cases hwrap : first < w
    · rw [if_pos hwrap, if_pos hwrap]
      unfold taSet
      rw [if_pos (by rw [hseg2, hlena]; omega)]
    · rw [if_neg hwrap, if_neg hwrap]
  refine ⟨h8a, h8b, ht1, ht2, ?_, ?_, ?_, ?_, ?_⟩
  · rw [length_st32, hlenb]
  · exact ld32_st32_self (by rw [hlenb]; omega)
      (Nat.mod_lt _ (by unfold U32; omega))
  · -- bytes written, in order
    intro j hj
    have hpos : (hd + j) % cap < cap := Nat.mod_lt _ capPos
    rw [byteAt_st32_outside (by omega)]
    by_cases hjf : j < first
    · have hpe : (hd + j) % cap = hd % cap + j := by
        rw [← Nat.mod_add_mod, Nat.mod_eq_of_lt (by omega)]
      rw [hpe]
      have hout : h8b.getD (B + hd % cap + j) 0 = h8a.getD (B + hd % cap + j) 0 := by
        rw [h8bdef]
        by_cases hwrap : first < w
        · rw [if_pos hwrap,
              getD_writeSeq_outside _ h8a B (B + hd % cap + j) (by rw [hseg2]; omega)]
        · rw [if_neg hwrap]
      have hin : h8a.getD (B + hd % cap + j) 0
          = (subarray src srcOff (srcOff + first)).getD j 0 := by
        rw [h8adef]
        exact getD_writeSeq_inside _ h8 (B + hd % cap) j (by rw [hseg1]; omega) (by omega)
      have hsub : (subarray src srcOff (srcOff + first)).getD j 0
          = byteAt src (srcOff + j) := getD_subarray (by omega) (by omega)
      unfold byteAt
      have e : B + (hd % cap + j) = B + hd % cap + j := by omega
      rw [e, hout, hin, hsub]
      have hb := byteAt_lt src (srcOff + j)
      unfold byteAt at hb ⊢
      omega
    · have hwrap : first < w := by omega
      have hfeq : first = cap - hd % cap := by omega
      have hpe : (hd + j) % cap = j - first := by
        rw [← Nat.mod_add_mod, Nat.mod_eq_sub_mod (by omega),
            Nat.mod_eq_of_lt (by omega)]
        omega
      rw [hpe]
      have hbval : h8b.getD (B + (j - first)) 0
          = (subarray src (srcOff + first) (srcOff + w)).getD (j - first) 0 := by
        rw [h8bdef, if_pos hwrap]
        exact getD_writeSeq_inside _ h8a B (j - first) (by rw [hseg2]; omega)
          (by rw [hlena]; omega)
      have hsub : (subarray src (srcOff + first) (srcOff + w)).getD (j - first) 0
          = byteAt src (srcOff + first + (j - first)) :=
        getD_subarray (by omega) (by omega)
      have e : srcOff + first + (j - first) = srcOff + j := by omega
      rw [e] at hsub
      unfold byteAt
      rw [hbval, hsub]
      have hb := byteAt_lt src (srcOff + j)
      unfold byteAt at hb ⊢
      omega
  · -- untouched ring cells
    intro p hp hnw
    rw [byteAt_st32_outside (by omega)]
    have hn1 : p < hd % cap ∨ hd % cap + first ≤ p := by
      by_cases hc : hd % cap ≤ p ∧ p < hd % cap + first
      · exfalso
        apply hnw (p - hd % cap) (by omega)
        have : (hd + (p - hd % cap)) % cap = p := by
          rw [← Nat.mod_add_mod, Nat.mod_eq_of_lt (by omega)]
          omega
        omega
      · omega
    have hn2 : ¬ first < w ∨ w - first ≤ p := by
      by_cases hwrap : first < w
      · right
        by_contra hlt
        apply hnw (p + first) (by omega)
        have hfeq : first = cap - hd % cap := by omega
        have : (hd + (p + first)) % cap = p := by
          rw [← Nat.mod_add_mod]
          have e : hd % cap + (p + first) = p + cap := by omega
          rw [e, Nat.add_mod_right, Nat.mod_eq_of_lt hp]
        omega
      · left
        exact hwrap
    unfold byteAt
    have houtb : h8b.getD (B + p) 0 = h8a.getD (B + p) 0 := by
      rw [h8bdef]
      by_cases hwrap : first < w
      · rw [if_pos hwrap,
            getD_writeSeq_outside _ h8a B (B + p) (by rw [hseg2]; omega)]
      · rw [if_neg hwrap]
    have houta : h8a.getD (B + p) 0 = h8.getD (B + p) 0 := by
      rw [h8adef]
      exact getD_writeSeq_outside _ h8 (B + hd % cap) (B + p) (by rw [hseg1]; omega)
    rw [houtb, houta]
  · -- frame outside the ring region and the head cell
    intro k hk1 hk2
    rw [byteAt_st32_outside (by omega)]
    unfold byteAt
    have houtb : h8b.getD k 0 = h8a.getD k 0 := by
      rw [h8bdef]
      by_cases hwrap : first < w
      · rw [if_pos hwrap,
            getD_writeSeq_outside _ h8a B k (by rw [hseg2]; omega)]
      · rw [if_neg hwrap]
    have houta : h8a.getD k 0 = h8.getD k 0 := by
      rw [h8adef]
      exact getD_writeSeq_outside _ h8 (B + hd % cap) k (by rw [hseg1]; omega)
    rw [houtb, houta]

/-! ### Specification of pushRx -/

theorem pushCore_spec (h8 src : List Nat) (cap H T B hd tl used : Nat)
    (q : List Nat) (w : Nat)
    (ok : ChanOk h8 cap H T B)
    (hhdv : hd = ld32 h8 H) (htlv : tl = ld32 h8 T) (husedv : used = sub32 hd tl)
    (hq : q = chanQ h8 cap H T B)
    (hw : w = min (cap - q.length) src.length) :
    ∃ h8f,
      UartShared.pushRxLoop cap B H src h8 hd 0 used = some (h8f, (hd + w) % U32, w)
      ∧ h8f.length = h8.length
      ∧ ChanOk h8f cap H T B
      ∧ ld32 h8f T = ld32 h8 T
      ∧ ld32 h8f H = (hd + w) % U32
      ∧ chanQ h8f cap H T B = q ++ (src.take w).map (fun b => b % 256)
      ∧ (∀ j, (4 * j + 4 ≤ B ∨ B + cap ≤ 4 * j) → j ≠ H → ld32 h8f j = ld32 h8 j)
      ∧ (∀ k, (k < B ∨ B + cap ≤ k) → (k < 4 * H ∨ 4 * H + 4 ≤ k) →
          byteAt h8f k = byteAt h8 k) := by
  obtain ⟨capPos, capLt, hdvd, hHlen, hTlen, hBlen, hHT, hHB, hTB, husedle⟩ := ok
  have hhd : hd < U32 := hhdv ▸ ld32_lt h8 H
  have htl : tl < U32 := htlv ▸ ld32_lt h8 T
  have hqlen : q.length = used := by
    rw [hq, length_chanQ, ← hhdv, ← htlv, ← husedv]
  have husedcap : used ≤ cap := by
    rw [husedv, hhdv, htlv]
    exact husedle
  by_cases hw0 : w = 0
  · subst hw0
    refine ⟨h8, ?_, rfl, ⟨capPos, capLt, hdvd, hHlen, hTlen, hBlen, hHT, hHB, hTB,
      husedle⟩, rfl, ?_, ?_, ?_, ?_⟩
    · have e : (hd + 0) % U32 = hd := by
        rw [Nat.add_zero, Nat.mod_eq_of_lt hhd]
      rw [e]
      exact pushRxLoop_exit (by omega)
    · rw [← hhdv, Nat.add_zero, Nat.mod_eq_of_lt hhd]
    · simp [hq]
    · intro j _ _
      rfl
    · intro k _ _
      rfl
  · have hwpos : 0 < w := Nat.pos_of_ne_zero hw0
    have hguard : 0 < src.length ∧ 0 < cap - used := by omega
    obtain ⟨h8a, h8b, ht1, ht2, hlenf, hldH, hwrit, huntouched, hframe⟩ :=
      ringCopy_spec h8 src cap H B hd 0 w capPos hBlen hHB hHlen hwpos
        (by omega) (by omega) hhd
    have hloop : UartShared.pushRxLoop cap B H src h8 hd 0 used
        = some (st32 h8b H ((hd + w) % U32), (hd + w) % U32, w) := by
      rw [pushRxLoop_step hguard]
      have e1 : min (cap - used) (src.length - 0) = w := by omega
      have e2 : jsMod hd cap = hd % cap := by
        unfold jsMod
        rw [if_neg (by omega)]
      rw [e1, e2, ht1]
      dsimp only
      rw [ht2]
      dsimp only
      rw [Nat.zero_add]
      exact pushRxLoop_exit (by omega)
    have hldframe : ∀ j, (4 * j + 4 ≤ B ∨ B + cap ≤ 4 * j) → j ≠ H →
        ld32 (st32 h8b H ((hd + w) % U32)) j = ld32 h8 j := by
      intro j hj hjH
      unfold ld32
      rw [hframe (4 * j) (by omega) (by omega),
          hframe (4 * j + 1) (by omega) (by omega),
          hframe (4 * j + 2) (by omega) (by omega),
          hframe (4 * j + 3) (by omega) (by omega)]
    have htlc : ld32 (st32 h8b H ((hd + w) % U32)) T = ld32 h8 T :=
      hldframe T hTB (Ne.symm hHT)
    have husedf : sub32 ((hd + w) % U32) tl = used + w := by
      rw [husedv]
      exact sub32_add_right hhd htl (by rw [← husedv]; unfold U32; omega)
    have hdec : (tl + used) % U32 = hd := by
      rw [husedv]
      exact head_decomp hhd htl
    have hpose : ∀ j, (hd + j) % cap = (tl + (used + j)) % cap := by
      intro j
      conv_lhs => rw [← hdec]
      rw [add_mod_U32_mod_cap _ _ hdvd, Nat.add_assoc]
    refine ⟨st32 h8b H ((hd + w) % U32), hloop, hlenf, ?_, htlc, hldH, ?_, hldframe, hframe⟩
    · refine ⟨capPos, capLt, hdvd, ?_, ?_, ?_, hHT, hHB, hTB, ?_⟩
      · rw [hlenf]
        exact hHlen
      · rw [hlenf]
        exact hTlen
      · rw [hlenf]
        exact hBlen
      · rw [hldH, htlc, ← htlv, husedf]
        omega
    · have hlq : (chanQ (st32 h8b H ((hd + w) % U32)) cap H T B).length = used + w := by
        rw [length_chanQ, hldH, htlc, ← htlv, husedf]
      have hrhslen : (q ++ (src.take w).map (fun b => b % 256)).length = used + w := by
        simp only [List.length_append, List.length_map, List.length_take]
        omega
      refine list_ext_getD (by rw [hlq, hrhslen]) ?_
      intro k hk
      rw [hlq] at hk
      have hLHS : (chanQ (st32 h8b H ((hd + w) % U32)) cap H T B).getD k 0
          = byteAt (st32 h8b H ((hd + w) % U32)) (B + (tl + k) % cap) := by
        rw [getD_chanQ (by rw [hldH, htlc, ← htlv, husedf]; exact hk), htlc, ← htlv]
      rw [hLHS]
      by_cases hku : k < used
      · rw [List.getD_append q ((src.take w).map (fun b => b % 256)) 0 k (by omega)]
        have hqk : q.getD k 0 = byteAt h8 (B + (tl + k) % cap) := by
          rw [hq, getD_chanQ (by rw [← hhdv, ← htlv, ← husedv]; exact hku), ← htlv]
        rw [hqk]
        apply huntouched ((tl + k) % cap) (Nat.mod_lt _ capPos)
        intro j hj heq
        have h1 : (hd + j) % cap = (tl + (used + j)) % cap := hpose j
        rw [h1] at heq
        have := addModCapInj (show k < cap by omega) (show used + j < cap by omega) heq
        omega
      · have hj : k - used < w := by omega
        rw [List.getD_append_right q ((src.take w).map (fun b => b % 256)) 0 k (by omega)]
        rw [hqlen]
        rw [getD_map_mod (by rw [List.length_take]; omega)]
        rw [getD_take hj (by omega)]
        have hpe : (tl + k) % cap = (hd + (k - used)) % cap := by
          rw [hpose (k - used)]
          have e : used + (k - used) = k := by omega
          rw [e]
        rw [hpe]
        have hwr := hwrit (k - used) hj
        rw [Nat.zero_add] at hwr
        rw [hwr]
        rfl

theorem pushRx_spec (h8 src q : List Nat) (w cap H T B : Nat) (rI : Option Nat)
    (tH tT tB : Nat) (sH : Option Nat) (sT sB : Nat)
    (ok : ChanOk h8 cap H T B) (hq : q = chanQ h8 cap H T B)
    (hw : w = min (cap - q.length) src.length) :
    ∃ h8f,
      UartShared.pushRx ⟨some h8, cap, H, T, B, rI, tH, tT, tB, sH, sT, sB⟩ src
        = some (⟨some h8f, cap, H, T, B, rI, tH, tT, tB, sH, sT, sB⟩,
            if w < src.length then some (src.length - w) else none)
      ∧ h8f.length = h8.length
      ∧ ChanOk h8f cap H T B
      ∧ ld32 h8f T = ld32 h8 T
      ∧ ld32 h8f H = (ld32 h8 H + w) % U32
      ∧ chanQ h8f cap H T B = q ++ (src.take w).map (fun b => b % 256)
      ∧ (∀ j, (4 * j + 4 ≤ B ∨ B + cap ≤ 4 * j) → j ≠ H → ld32 h8f j = ld32 h8 j)
      ∧ (∀ k, (k < B ∨ B + cap ≤ k) → (k < 4 * H ∨ 4 * H + 4 ≤ k) →
          byteAt h8f k = byteAt h8 k) := by
  obtain ⟨h8f, hloop, hrest⟩ := pushCore_spec h8 src cap H T B (ld32 h8 H) (ld32 h8 T)
    (sub32 (ld32 h8 H) (ld32 h8 T)) q w ok rfl rfl rfl hq hw
  refine ⟨h8f, ?_, hrest⟩
  unfold UartShared.pushRx
  dsimp only
  rw [hloop]

/-! ### Specification of popTx -/

theorem getD_drop {l : List Nat} {n k : Nat} (h : n + k < l.length) :
    (l.drop n).getD k 0 = l.getD (n + k) 0 := by
  have hlt : k < (l.drop n).length := by
    simp only [List.length_drop]
    omega
  rw [← getElem_eq_getD hlt, List.getElem_drop, getElem_eq_getD h]

theorem ringPos_lt {cap t k : Nat} (capPos : 0 < cap) (hk : k < cap - t % cap) :
    (t + k) % cap = t % cap + k := by
  have hm : t % cap < cap := Nat.mod_lt t capPos
  rw [← Nat.mod_add_mod, Nat.mod_eq_of_lt (by omega)]

theorem ringPos_ge {cap t k : Nat} (capPos : 0 < cap) (hge : cap - t % cap ≤ k)
    (hk : k < cap) : (t + k) % cap = k - (cap - t % cap) := by
  have hm : t % cap < cap := Nat.mod_lt t capPos
  rw [← Nat.mod_add_mod, Nat.mod_eq_sub_mod (by omega), Nat.mod_eq_of_lt (by omega)]
  omega

theorem popTx_spec (h8 : List Nat) (cap rH rT rB : Nat) (rI : Option Nat)
    (H T B : Nat) (sH : Option Nat) (sT sB : Nat)
    (maxBytes : Nat) (out q : List Nat) (n : Nat)
    (ok : ChanOk h8 cap H T B) (hq : q = chanQ h8 cap H T B)
    (hn : n = min q.length maxBytes) :
    (q.length = 0 →
      UartShared.popTx ⟨some h8, cap, rH, rT, rB, rI, H, T, B, sH, sT, sB⟩ maxBytes out
        = some (⟨some h8, cap, rH, rT, rB, rI, H, T, B, sH, sT, sB⟩, out, 0))
    ∧ (0 < q.length → n ≤ out.length → ∃ h8f out2,
        UartShared.popTx ⟨some h8, cap, rH, rT, rB, rI, H, T, B, sH, sT, sB⟩ maxBytes out
          = some (⟨some h8f, cap, rH, rT, rB, rI, H, T, B, sH, sT, sB⟩, out2, n)
        ∧ h8f.length = h8.length
        ∧ ChanOk h8f cap H T B
        ∧ ld32 h8f H = ld32 h8 H
        ∧ ld32 h8f T = (ld32 h8 T + n) % U32
        ∧ chanQ h8f cap H T B = q.drop n
        ∧ out2.length = out.length
        ∧ out2.take n = q.take n
        ∧ out2.drop n = out.drop n
        ∧ (∀ j, j ≠ T → ld32 h8f j = ld32 h8 j)
        ∧ (∀ k, (k < 4 * T ∨ 4 * T + 4 ≤ k) → byteAt h8f k = byteAt h8 k))
    ∧ (0 < q.length → out.length < n →
        UartShared.popTx ⟨some h8, cap, rH, rT, rB, rI, H, T, B, sH, sT, sB⟩ maxBytes out
          = none) := by
  obtain ⟨capPos, capLt, hdvd, hHlen, hTlen, hBlen, hHT, hHB, hTB, husedle⟩ := ok
  have hhd : ld32 h8 H < U32 := ld32_lt h8 H
  have htl : ld32 h8 T < U32 := ld32_lt h8 T
  have hql : q.length = sub32 (ld32 h8 H) (ld32 h8 T) := by
    rw [hq, length_chanQ]
  have htlt : ld32 h8 T % cap < cap := Nat.mod_lt _ capPos
  refine ⟨?_, ?_, ?_⟩
  · -- empty channel: early return, no side effect
    intro h0
    unfold UartShared.popTx
    dsimp only
    rw [if_pos (by omega)]
  · -- successful pop of n bytes
    intro hqpos hout
    have hnq : n ≤ q.length := by omega
    have hncap : n ≤ cap := by omega
    unfold UartShared.popTx
    dsimp only
    rw [if_neg (by omega)]
    have e2 : jsMod (ld32 h8 T) cap = ld32 h8 T % cap := by
      unfold jsMod
      rw [if_neg (by omega)]
    rw [e2]
    have hnv : min (sub32 (ld32 h8 H) (ld32 h8 T)) maxBytes = n := by omega
    rw [hnv]
    have hf2 : min n (cap - ld32 h8 T % cap) ≤ n := by omega
    have hf3 : min n (cap - ld32 h8 T % cap) ≤ cap - ld32 h8 T % cap := by omega
    have hsub1len : (subarray h8 (B + ld32 h8 T % cap)
        (B + ld32 h8 T % cap + min n (cap - ld32 h8 T % cap))).length
        = min n (cap - ld32 h8 T % cap) := by
      rw [subarray_length (by omega) (by omega)]
      omega
    have ht1 : taSet out (subarray h8 (B + ld32 h8 T % cap)
        (B + ld32 h8 T % cap + min n (cap - ld32 h8 T % cap))) 0
        = some (writeSeq out 0 (subarray h8 (B + ld32 h8 T % cap)
            (B + ld32 h8 T % cap + min n (cap - ld32 h8 T % cap)))) := by
      unfold taSet
      rw [if_pos (by rw [hsub1len]; omega)]
    rw [ht1]
    dsimp only
    have hsub2len : (subarray h8 B (B + (n - min n (cap - ld32 h8 T % cap)))).length
        = n - min n (cap - ld32 h8 T % cap) := by
      rw [subarray_length (by omega) (by omega)]
      omega
    set out1 := writeSeq out 0 (subarray h8 (B + ld32 h8 T % cap)
        (B + ld32 h8 T % cap + min n (cap - ld32 h8 T % cap))) with hout1def
    have hout1len : out1.length = out.length := by
      rw [hout1def, writeSeq_length]
    set out2 := if min n (cap - ld32 h8 T % cap) < n then
        writeSeq out1 (min n (cap - ld32 h8 T % cap))
          (subarray h8 B (B + (n - min n (cap - ld32 h8 T % cap))))
      else out1 with hout2def
    have ht2 : (if min n (cap - ld32 h8 T % cap) < n then
        taSet out1 (subarray h8 B (B + (n - min n (cap - ld32 h8 T % cap))))
          (min n (cap - ld32 h8 T % cap))
      else some out1) = some out2 := by
      rw [hout2def]
      by_cases hwrap : min n (cap - ld32 h8 T % cap) < n
      · rw [if_pos hwrap, if_pos hwrap]
        unfold taSet
        rw [if_pos (by rw [hsub2len, hout1len]; omega)]
      · rw [if_neg hwrap, if_neg hwrap]
    rw [ht2]
    dsimp only
    have hout2len : out2.length = out.length := by
      rw [hout2def]
      by_cases hwrap : min n (cap - ld32 h8 T % cap) < n
      · rw [if_pos hwrap, writeSeq_length, hout1len]
      · rw [if_neg hwrap, hout1len]
    have hH' : ld32 (st32 h8 T ((ld32 h8 T + n) % U32)) H = ld32 h8 H :=
      ld32_st32_ne (Ne.symm hHT) h8 _
    have hT' : ld32 (st32 h8 T ((ld32 h8 T + n) % U32)) T = (ld32 h8 T + n) % U32 :=
      ld32_st32_self hTlen (Nat.mod_lt _ (by unfold U32; omega))
    refine ⟨st32 h8 T ((ld32 h8 T + n) % U32), out2, rfl, length_st32 h8 T _, ?_,
      hH', hT', ?_, hout2len, ?_, ?_, ?_, ?_⟩
    · refine ⟨capPos, capLt, hdvd, ?_, ?_, ?_, hHT, hHB, hTB, ?_⟩
      · rw [length_st32]
        exact hHlen
      · rw [length_st32]
        exact hTlen
      · rw [length_st32]
        exact hBlen
      · rw [hH', hT', sub32_tail_add hhd htl (by omega)]
        omega
    · -- the new queue is the old one with the first n bytes dropped
      have hlq : (chanQ (st32 h8 T ((ld32 h8 T + n) % U32)) cap H T B).length
          = sub32 (ld32 h8 H) (ld32 h8 T) - n := by
        rw [length_chanQ, hH', hT', sub32_tail_add hhd htl (by omega)]
      refine list_ext_getD (by rw [hlq, List.length_drop]; omega) ?_
      intro k hk
      rw [hlq] at hk
      have hkq : n + k < q.length := by omega
      rw [getD_chanQ (by rw [hH', hT', sub32_tail_add hhd htl (by omega)]; exact hk), hT']
      rw [getD_drop (by omega)]
      rw [hq, getD_chanQ (by omega)]
      have hpe : ((ld32 h8 T + n) % U32 + k) % cap = (ld32 h8 T + (n + k)) % cap := by
        rw [add_mod_U32_mod_cap _ _ hdvd, Nat.add_assoc]
      rw [hpe]
      exact byteAt_st32_outside
        (by have := Nat.mod_lt (ld32 h8 T + (n + k)) capPos; omega) h8 _
    · -- the popped bytes are the first n queued bytes, in order
      have hlt : (out2.take n).length = n := by
        rw [List.length_take]
        omega
      refine list_ext_getD (by rw [hlt, List.length_take]; omega) ?_
      intro k hk
      rw [hlt] at hk
      rw [getD_take hk (by omega), getD_take hk (by omega)]
      rw [hq, getD_chanQ (by omega)]
      by_cases hkf : k < min n (cap - ld32 h8 T % cap)
      · have homemb : out2.getD k 0 = out1.getD k 0 := by
          rw [hout2def]
          by_cases hwrap : min n (cap - ld32 h8 T % cap) < n
          · rw [if_pos hwrap]
            exact getD_writeSeq_outside _ out1 _ k (by omega)
          · rw [if_neg hwrap]
        have hin := getD_writeSeq_inside
          (subarray h8 (B + ld32 h8 T % cap)
            (B + ld32 h8 T % cap + min n (cap - ld32 h8 T % cap))) out 0 k
          (by rw [hsub1len]; omega) (by omega)
        rw [Nat.zero_add] at hin
        have hsub : (subarray h8 (B + ld32 h8 T % cap)
            (B + ld32 h8 T % cap + min n (cap - ld32 h8 T % cap))).getD k 0
            = byteAt h8 (B + ld32 h8 T % cap + k) :=
          getD_subarray (by omega) (by omega)
        rw [homemb, hout1def, hin, hsub, ringPos_lt capPos (by omega), ← Nat.add_assoc]
      · have hwrap : min n (cap - ld32 h8 T % cap) < n := by omega
        have homemb : out2.getD k 0 = (subarray h8 B
            (B + (n - min n (cap - ld32 h8 T % cap)))).getD
              (k - min n (cap - ld32 h8 T % cap)) 0 := by
          rw [hout2def, if_pos hwrap]
          have hin := getD_writeSeq_inside
            (subarray h8 B (B + (n - min n (cap - ld32 h8 T % cap)))) out1
            (min n (cap - ld32 h8 T % cap)) (k - min n (cap - ld32 h8 T % cap))
            (by rw [hsub2len]; omega) (by rw [hout1len]; omega)
          rw [show min n (cap - ld32 h8 T % cap) + (k - min n (cap - ld32 h8 T % cap)) = k
            from by omega] at hin
          exact hin
        rw [homemb, getD_subarray (by omega) (by omega),
          ringPos_ge capPos (by omega) (by omega),
          show min n (cap - ld32 h8 T % cap) = cap - ld32 h8 T % cap from by omega]
    · -- the rest of the scratch buffer is untouched
      refine list_ext_getD (by simp only [List.length_drop, hout2len]) ?_
      intro k hk
      simp only [List.length_drop] at hk
      rw [getD_drop (by omega), getD_drop (by omega)]
      have h2 : out2.getD (n + k) 0 = out1.getD (n + k) 0 := by
        rw [hout2def]
        by_cases hwrap : min n (cap - ld32 h8 T % cap) < n
        · rw [if_pos hwrap]
          exact getD_writeSeq_outside _ out1 _ (n + k) (by rw [hsub2len]; omega)
        · rw [if_neg hwrap]
      rw [h2, hout1def]
      exact getD_writeSeq_outside _ out 0 (n + k) (by rw [hsub1len]; omega)
    · intro j hj
      exact ld32_st32_ne (Ne.symm hj) h8 _
    · intro k hk
      exact byteAt_st32_outside (by omega) h8 _
  · -- out too small: RangeError
    intro hqpos hout
    unfold UartShared.popTx
    dsimp only
    rw [if_neg (by omega)]
    have e2 : jsMod (ld32 h8 T) cap = ld32 h8 T % cap := by
      unfold jsMod
      rw [if_neg (by omega)]
    rw [e2]
    have hnv : min (sub32 (ld32 h8 H) (ld32 h8 T)) maxBytes = n := by omega
    rw [hnv]
    have hncap : n ≤ cap := by omega
    have hf3 : min n (cap - ld32 h8 T % cap) ≤ cap - ld32 h8 T % cap := by omega
    have hsub1len : (subarray h8 (B + ld32 h8 T % cap)
        (B + ld32 h8 T % cap + min n (cap - ld32 h8 T % cap))).length
        = min n (cap - ld32 h8 T % cap) := by
      rw [subarray_length (by omega) (by omega)]
      omega
    by_cases hflen : min n (cap - ld32 h8 T % cap) ≤ out.length
    · have ht1 : taSet out (subarray h8 (B + ld32 h8 T % cap)
          (B + ld32 h8 T % cap + min n (cap - ld32 h8 T % cap))) 0
          = some (writeSeq out 0 (subarray h8 (B + ld32 h8 T % cap)
              (B + ld32 h8 T % cap + min n (cap - ld32 h8 T % cap)))) := by
        unfold taSet
        rw [if_pos (by rw [hsub1len]; omega)]
      rw [ht1]
      dsimp only
      rw [if_pos (by omega)]
      have hsub2len : (subarray h8 B (B + (n - min n (cap - ld32 h8 T % cap)))).length
          = n - min n (cap - ld32 h8 T % cap) := by
        rw [subarray_length (by omega) (by omega)]
        omega
      have ht2 : taSet (writeSeq out 0 (subarray h8 (B + ld32 h8 T % cap)
          (B + ld32 h8 T % cap + min n (cap - ld32 h8 T % cap))))
          (subarray h8 B (B + (n - min n (cap - ld32 h8 T % cap))))
          (min n (cap - ld32 h8 T % cap)) = none := by
        unfold taSet
        rw [if_neg (by rw [hsub2len, writeSeq_length]; omega)]
      rw [ht2]
    · have ht1 : taSet out (subarray h8 (B + ld32 h8 T % cap)
          (B + ld32 h8 T % cap + min n (cap - ld32 h8 T % cap))) 0 = none := by
        unfold taSet
        rw [if_neg (by rw [hsub1len]; omega)]
      rw [ht1]

/-! ### Specification of pushStdin -/

theorem ld32_set_outside {p j : Nat} (hp : p < 4 * j ∨ 4 * j + 4 ≤ p)
    (h : List Nat) (v : Nat) : ld32 (h.set p v) j = ld32 h j := by
  unfold ld32
  rw [byteAt_set_ne (by omega : p ≠ 4 * j),
      byteAt_set_ne (by omega : p ≠ 4 * j + 1),
      byteAt_set_ne (by omega : p ≠ 4 * j + 2),
      byteAt_set_ne (by omega : p ≠ 4 * j + 3)]

theorem pushStdin_spec (h8 : List Nat) (cap rH rT rB : Nat) (rI : Option Nat)
    (tH tT tB H T B char : Nat) (q : List Nat)
    (ok : ChanOk h8 cap H T B) (hq : q = chanQ h8 cap H T B) :
    (q.length < cap → ∃ h8f,
      UartShared.pushStdin ⟨some h8, cap, rH, rT, rB, rI, tH, tT, tB, some H, T, B⟩ char
        = ⟨some h8f, cap, rH, rT, rB, rI, tH, tT, tB, some H, T, B⟩
      ∧ h8f.length = h8.length
      ∧ ChanOk h8f cap H T B
      ∧ ld32 h8f T = ld32 h8 T
      ∧ ld32 h8f H = (ld32 h8 H + 1) % U32
      ∧ byteAt h8f (B + ld32 h8 H % cap) = char % 256
      ∧ chanQ h8f cap H T B = q ++ [char % 256]
      ∧ (∀ j, (4 * j + 4 ≤ B ∨ B + cap ≤ 4 * j) → j ≠ H → ld32 h8f j = ld32 h8 j)
      ∧ (∀ k, (k < B ∨ B + cap ≤ k) → (k < 4 * H ∨ 4 * H + 4 ≤ k) →
          byteAt h8f k = byteAt h8 k))
    ∧ (cap ≤ q.length →
      UartShared.pushStdin ⟨some h8, cap, rH, rT, rB, rI, tH, tT, tB, some H, T, B⟩ char
        = ⟨some h8, cap, rH, rT, rB, rI, tH, tT, tB, some H, T, B⟩) := by
  obtain ⟨capPos, capLt, hdvd, hHlen, hTlen, hBlen, hHT, hHB, hTB, husedle⟩ := ok
  have hhd : ld32 h8 H < U32 := ld32_lt h8 H
  have htl : ld32 h8 T < U32 := ld32_lt h8 T
  have hql : q.length = sub32 (ld32 h8 H) (ld32 h8 T) := by
    rw [hq, length_chanQ]
  have hhi : ld32 h8 H % cap < cap := Nat.mod_lt _ capPos
  constructor
  · intro hfree
    have hdcap : ld32 h8 H % cap = (ld32 h8 T + q.length) % cap := by
      conv_lhs => rw [← head_decomp hhd htl]
      rw [mod_U32_mod_cap _ hdvd, ← hql]
    unfold UartShared.pushStdin
    dsimp only
    rw [if_pos (by omega)]
    have e2 : jsMod (ld32 h8 H) cap = ld32 h8 H % cap := by
      unfold jsMod
      rw [if_neg (by omega)]
    rw [e2]
    have hseta : (h8.set (B + ld32 h8 H % cap) char).length = h8.length :=
      List.length_set h8 _ _
    have hH' : ld32 (st32 (h8.set (B + ld32 h8 H % cap) char) H ((ld32 h8 H + 1) % U32)) H
        = (ld32 h8 H + 1) % U32 :=
      ld32_st32_self (by rw [hseta]; omega) (Nat.mod_lt _ (by unfold U32; omega))
    have hT' : ld32 (st32 (h8.set (B + ld32 h8 H % cap) char) H ((ld32 h8 H + 1) % U32)) T
        = ld32 h8 T := by
      rw [ld32_st32_ne hHT, ld32_set_outside (by omega)]
    have hstored : byteAt (st32 (h8.set (B + ld32 h8 H % cap) char) H
        ((ld32 h8 H + 1) % U32)) (B + ld32 h8 H % cap) = char % 256 := by
      rw [byteAt_st32_outside (by omega), byteAt_set_self (by omega)]
    refine ⟨st32 (h8.set (B + ld32 h8 H % cap) char) H ((ld32 h8 H + 1) % U32), rfl,
      ?_, ?_, hT', hH', hstored, ?_, ?_, ?_⟩
    · rw [length_st32, hseta]
    · refine ⟨capPos, capLt, hdvd, ?_, ?_, ?_, hHT, hHB, hTB, ?_⟩
      · rw [length_st32, hseta]
        exact hHlen
      · rw [length_st32, hseta]
        exact hTlen
      · rw [length_st32, hseta]
        exact hBlen
      · rw [hH', hT', sub32_add_right hhd htl (by unfold U32; omega)]
        omega
    · -- the queue gains exactly the truncated byte
      have hused1 : sub32 ((ld32 h8 H + 1) % U32) (ld32 h8 T)
          = sub32 (ld32 h8 H) (ld32 h8 T) + 1 :=
        sub32_add_right hhd htl (by unfold U32; omega)
      have hlq : (chanQ (st32 (h8.set (B + ld32 h8 H % cap) char) H
          ((ld32 h8 H + 1) % U32)) cap H T B).length = q.length + 1 := by
        rw [length_chanQ, hH', hT', hused1, hql]
      refine list_ext_getD (by rw [hlq]; simp) ?_
      intro k hk
      rw [hlq] at hk
      rw [getD_chanQ (by rw [hH', hT', hused1, ← hql]; exact hk), hT']
      by_cases hku : k < q.length
      · rw [List.getD_append q [char % 256] 0 k (by omega)]
        rw [hq, getD_chanQ (by rw [← hql]; exact hku)]
        have hne : (ld32 h8 T + k) % cap ≠ ld32 h8 H % cap := by
          rw [hdcap]
          intro heq
          have := addModCapInj (show k < cap by omega) (show q.length < cap by omega) heq
          omega
        rw [byteAt_st32_outside
          (by have := Nat.mod_lt (ld32 h8 T + k) capPos; omega)]
        rw [byteAt_set_ne (by have := Nat.mod_lt (ld32 h8 T + k) capPos; omega)]
      · have hke : k = q.length := by omega
        rw [List.getD_append_right q [char % 256] 0 k (by omega), hke]
        simp only [Nat.sub_self]
        rw [show (ld32 h8 T + q.length) % cap = ld32 h8 H % cap from hdcap.symm]
        rw [hstored]
        rfl
    · intro j hj hjH
      rw [ld32_st32_ne (Ne.symm hjH), ld32_set_outside (by omega)]
    · intro k hk1 hk2
      rw [byteAt_st32_outside (by omega), byteAt_set_ne (by omega)]
  · intro hfull
    unfold UartShared.pushStdin
    dsimp only
    rw [if_neg (by omega)]

/-! ### Refinement of operation sequences on a single channel -/

theorem map_mod_id {l : List Nat} (h : ∀ b ∈ l, b < 256) :
    l.map (fun b => b % 256) = l := by
  induction l with
  | nil => rfl
  | cons x rest ih =>
    simp only [List.map_cons]
    rw [Nat.mod_eq_of_lt (h x (by simp)), ih (fun b hb => h b (by simp [hb]))]

theorem runOps_spec (ops : List ChanOp) : ∀ (h8 q : List Nat) (cap H T B : Nat)
    (rI : Option Nat) (sH : Option Nat) (sT sB : Nat),
    ChanOk h8 cap H T B → q = chanQ h8 cap H T B →
    (∀ op ∈ ops, op.bytesOk = true) →
    ∃ h8f acc popped,
      runOps ⟨some h8, cap, H, T, B, rI, H, T, B, sH, sT, sB⟩ ops
        = some (⟨some h8f, cap, H, T, B, rI, H, T, B, sH, sT, sB⟩, acc, popped)
      ∧ ChanOk h8f cap H T B
      ∧ q ++ acc = popped ++ chanQ h8f cap H T B
      ∧ ((∀ op ∈ ops, op.isPush = true) → q.length + (pushConcat ops).length ≤ cap →
          acc = pushConcat ops ∧ popped = []) := by
  induction ops with
  | nil =>
    intro h8 q cap H T B rI sH sT sB ok hq _
    refine ⟨h8, [], [], rfl, ok, by simp [hq], fun _ _ => ⟨rfl, rfl⟩⟩
  | cons op rest ih =>
    intro h8 q cap H T B rI sH sT sB ok hq hbytes
    cases op with
    | push bs =>
      have hbs : ∀ b ∈ bs, b < 256 := by
        have h1 := hbytes (ChanOp.push bs) (by simp)
        simpa [ChanOp.bytesOk, List.all_eq_true] using h1
      obtain ⟨h8a, hpusheq, _, oka, _, _, hqe, _, _⟩ :=
        pushRx_spec h8 bs q (min (cap - q.length) bs.length) cap H T B rI H T B sH sT sB
          ok hq rfl
      have hmap : (bs.take (min (cap - q.length) bs.length)).map (fun b => b % 256)
          = bs.take (min (cap - q.length) bs.length) :=
        map_mod_id (fun b hb => hbs b (List.mem_of_mem_take hb))
      obtain ⟨h8f, acc, popped, hrun, okf, hinv, hlast⟩ :=
        ih h8a (q ++ bs.take (min (cap - q.length) bs.length)) cap H T B rI sH sT sB oka
          (by rw [hqe, hmap]) (fun o ho => hbytes o (by simp [ho]))
      have hacc : bs.take (bs.length - droppedLen
          (if min (cap - q.length) bs.length < bs.length then
            some (bs.length - min (cap - q.length) bs.length) else none))
          = bs.take (min (cap - q.length) bs.length) := by
        by_cases hwl : min (cap - q.length) bs.length < bs.length
        · rw [if_pos hwl]
          simp only [droppedLen]
          congr 1
          omega
        · rw [if_neg hwl]
          simp only [droppedLen]
          congr 1
          omega
      have hstep : runOps ⟨some h8, cap, H, T, B, rI, H, T, B, sH, sT, sB⟩
          (ChanOp.push bs :: rest)
          = some (⟨some h8f, cap, H, T, B, rI, H, T, B, sH, sT, sB⟩,
              bs.take (min (cap - q.length) bs.length) ++ acc, popped) := by
        simp only [runOps]
        rw [hpusheq]
        dsimp only
        rw [hrun]
        dsimp only
        rw [hacc]
      refine ⟨h8f, bs.take (min (cap - q.length) bs.length) ++ acc, popped, hstep, okf,
        ?_, ?_⟩
      · rw [← List.append_assoc]
        exact hinv
      · intro hpush htot
        have htake : bs.take (min (cap - q.length) bs.length) = bs := by
          have hcon : (pushConcat (ChanOp.push bs :: rest)).length
              = bs.length + (pushConcat rest).length := by
            simp [pushConcat]
          have : min (cap - q.length) bs.length = bs.length := by omega
          rw [this, List.take_length]
        obtain ⟨ha, hp⟩ := hlast (fun o ho => hpush o (by simp [ho]))
          (by
            have hcon : (pushConcat (ChanOp.push bs :: rest)).length
                = bs.length + (pushConcat rest).length := by
              simp [pushConcat]
            simp only [List.length_append, List.length_take]
            omega)
        rw [htake, ha, hp]
        exact ⟨by simp [pushConcat], rfl⟩
    | pop m =>
      have hlenrep : (List.replicate m (0 : Nat)).length = m := List.length_replicate m 0
      by_cases hq0 : q.length = 0
      · obtain ⟨hempty, _, _⟩ :=
          popTx_spec h8 cap H T B rI H T B sH sT sB m (List.replicate m 0) q
            (min q.length m) ok hq rfl
        obtain ⟨h8f, acc, popped, hrun, okf, hinv, _⟩ :=
          ih h8 q cap H T B rI sH sT sB ok hq (fun o ho => hbytes o (by simp [ho]))
        have hstep : runOps ⟨some h8, cap, H, T, B, rI, H, T, B, sH, sT, sB⟩
            (ChanOp.pop m :: rest)
            = some (⟨some h8f, cap, H, T, B, rI, H, T, B, sH, sT, sB⟩, acc,
                (List.replicate m (0 : Nat)).take 0 ++ popped) := by
          simp only [runOps]
          rw [hempty hq0]
          dsimp only
          rw [hrun]
        refine ⟨h8f, acc, (List.replicate m (0 : Nat)).take 0 ++ popped, hstep, okf, ?_, ?_⟩
        · simp only [List.take_zero, List.nil_append]
          exact hinv
        · intro hpush _
          have := hpush (ChanOp.pop m) (by simp)
          simp [ChanOp.isPush] at this
      · obtain ⟨_, hpop, _⟩ :=
          popTx_spec h8 cap H T B rI H T B sH sT sB m (List.replicate m 0) q
            (min q.length m) ok hq rfl
        have hqpos : 0 < q.length := Nat.pos_of_ne_zero hq0
        have hnout : min q.length m ≤ (List.replicate m (0 : Nat)).length := by
          rw [hlenrep]
          exact Nat.min_le_right _ _
        obtain ⟨h8a, out2, hpopeq, _, oka, _, _, hqe, _, htake, _, _, _⟩ :=
          hpop hqpos hnout
        obtain ⟨h8f, acc, popped, hrun, okf, hinv, _⟩ :=
          ih h8a (q.drop (min q.length m)) cap H T B rI sH sT sB oka hqe.symm
            (fun o ho => hbytes o (by simp [ho]))
        have hstep : runOps ⟨some h8, cap, H, T, B, rI, H, T, B, sH, sT, sB⟩
            (ChanOp.pop m :: rest)
            = some (⟨some h8f, cap, H, T, B, rI, H, T, B, sH, sT, sB⟩, acc,
                out2.take (min q.length m) ++ popped) := by
          simp only [runOps]
          rw [hpopeq]
          dsimp only
          rw [hrun]
        refine ⟨h8f, acc, out2.take (min q.length m) ++ popped, hstep, okf, ?_, ?_⟩
        · rw [htake]
          conv_lhs => rw [← List.take_append_drop (min q.length m) q]
          rw [List.append_assoc, hinv, ← List.append_assoc]
        · intro hpush _
          have := hpush (ChanOp.pop m) (by simp)
          simp [ChanOp.isPush] at this

/-! ### Claim theorems -/

theorem ChanOk_used {h8 : List Nat} {cap H T B : Nat} (ok : ChanOk h8 cap H T B) :
    sub32 (ld32 h8 H) (ld32 h8 T) ≤ cap :=
  ok.2.2.2.2.2.2.2.2.2

/-- C9: Pre-binding safety: before `init` has bound the heap, `pushRx`
returns without writing anything and without warning, `popTx` returns 0
without reading or touching `tail`, and `pushStdin` returns without
writing; none of the three throws (each yields a value, never `none`).
`pushStdin` is likewise a safe no-op whenever only the stdin head index is
unbound. -/
theorem pre_binding_noop (st st2 : UartShared) (src out : List Nat) (c maxB : Nat)
    (hheap : st.heapU8 = none) (hstdin : st2.stdinHeadIdx = none) :
    st.pushRx src = some (st, none)
    ∧ st.popTx maxB out = some (st, out, 0)
    ∧ st.pushStdin c = st
    ∧ st2.pushStdin c = st2 := by
  obtain ⟨hp, cap, rH, rT, rB, rI, tH, tT, tB, sH0, sT, sB⟩ := st
  obtain ⟨hp2, cap2, rH2, rT2, rB2, rI2, tH2, tT2, tB2, sH2, sT2, sB2⟩ := st2
  dsimp only at hheap hstdin
  subst hheap
  subst hstdin
  refine ⟨rfl, rfl, rfl, ?_⟩
  cases hp2 <;> rfl

/-- C9 witness: the operations at a concrete unbound state and a concrete
state missing only the stdin head index. -/
theorem pre_binding_noop_witness :
    freshUart.heapU8 = none ∧ noStdinSt.stdinHeadIdx = none
    ∧ (freshUart.pushRx [5, 6] = some (freshUart, none)
      ∧ freshUart.popTx 3 [9] = some (freshUart, [9], 0)
      ∧ freshUart.pushStdin 65 = freshUart
      ∧ noStdinSt.pushStdin 65 = noStdinSt) :=
  ⟨rfl, rfl, pre_binding_noop freshUart noStdinSt [5, 6] [9] 65 3 rfl rfl⟩

/-- C5 counterexample: with reader, writer and device all present, a
rejection from `reader.cancel()` escapes `disconnect` and the writer-close
and device-close steps never execute — the writer and device handles are
still held.  This refutes "all four release steps execute on every exit
path, even if an earlier step throws": `disconnect` has no try/finally. -/
theorem disconnect_release_counterexample :
    (PM3WebUSB.disconnect wEnvThrow wPM3).threw = true
    ∧ (PM3WebUSB.disconnect wEnvThrow wPM3).state.writer = some 3
    ∧ (PM3WebUSB.disconnect wEnvThrow wPM3).state.device = some 1 := by
  decide

/-- C5 (amended): `disconnect` clears both loop running flags and the
connected flag first, so the state is non-connected on every exit path;
when no release call throws it cancels the reader, closes the writer and
closes the device, clearing all three references, without raising.  When an
earlier release call throws, the later steps are skipped and the exception
propagates to the caller. -/
theorem disconnect_contract (env : DisconnectEnv) (s : PM3State) :
    ((PM3WebUSB.disconnect env s).state.readLoopRunning = false
      ∧ (PM3WebUSB.disconnect env s).state.txLoopRunning = false
      ∧ (PM3WebUSB.disconnect env s).state.isConnected = false)
    ∧ (env.readerCancelThrows = false → env.writerCloseThrows = false →
        env.deviceCloseThrows = false →
        (PM3WebUSB.disconnect env s).threw = false
        ∧ (PM3WebUSB.disconnect env s).state.reader = none
        ∧ (PM3WebUSB.disconnect env s).state.writer = none
        ∧ (PM3WebUSB.disconnect env s).state.device = none) := by
  obtain ⟨dev, rd, wr, ic, rl, tl⟩ := s
  obtain ⟨e1, e2, e3⟩ := env
  constructor
  · cases rd <;> cases wr <;> cases dev <;> cases e1 <;> cases e2 <;> cases e3 <;>
      exact ⟨rfl, rfl, rfl⟩
  · intro h1 h2 h3
    dsimp only at h1 h2 h3
    subst h1
    subst h2
    subst h3
    cases rd <;> cases wr <;> cases dev <;> exact ⟨rfl, rfl, rfl, rfl⟩

/-- C5 witness: a fully-open instance torn down with no rejections. -/
theorem disconnect_contract_witness :
    wEnvOk.readerCancelThrows = false ∧ wEnvOk.writerCloseThrows = false
    ∧ wEnvOk.deviceCloseThrows = false
    ∧ ((PM3WebUSB.disconnect wEnvOk wPM3).threw = false
      ∧ (PM3WebUSB.disconnect wEnvOk wPM3).state.reader = none
      ∧ (PM3WebUSB.disconnect wEnvOk wPM3).state.writer = none
      ∧ (PM3WebUSB.disconnect wEnvOk wPM3).state.device = none)
    ∧ ((PM3WebUSB.disconnect wEnvOk wPM3).state.readLoopRunning = false
      ∧ (PM3WebUSB.disconnect wEnvOk wPM3).state.txLoopRunning = false
      ∧ (PM3WebUSB.disconnect wEnvOk wPM3).state.isConnected = false) :=
  ⟨rfl, rfl, rfl, (disconnect_contract wEnvOk wPM3).2 rfl rfl rfl,
    (disconnect_contract wEnvOk wPM3).1⟩

/-- C7: whenever the serial capability is unavailable, the user cancels
device selection (`requestPort` throws), or `open` throws, `connect`
returns `false` instead of raising (its body sits in a catch-all), neither
pump loop is started, and the connection stays non-connected.  The
cancellation case in particular is surfaced as the same non-error `false`
result. -/
theorem connect_failure_contract (env : ConnectEnv) (s : PM3State)
    (hnc : s.isConnected = false)
    (hfail : env.serialAvailable = false ∨ env.requestPortResult = none ∨
      env.openThrows = true) :
    (PM3WebUSB.connect env s).returned = false
    ∧ (PM3WebUSB.connect env s).readLoopStarted = false
    ∧ (PM3WebUSB.connect env s).txLoopStarted = false
    ∧ (PM3WebUSB.connect env s).state.isConnected = false := by
  obtain ⟨sa, rp, ot, mr, it⟩ := env
  obtain ⟨dev, rd, wr, ic, rl, tl⟩ := s
  dsimp only at hnc hfail
  subst hnc
  rcases hfail with h | h | h
  · subst h
    simp [PM3WebUSB.connect]
  · subst h
    cases sa <;> simp [PM3WebUSB.connect]
  · subst h
    cases sa <;> cases rp <;> simp [PM3WebUSB.connect]

/-- C7 witness: a cancelled device selection from a disconnected state. -/
theorem connect_failure_contract_witness :
    wPM3Idle.isConnected = false
    ∧ (wConnEnvCancel.serialAvailable = false ∨ wConnEnvCancel.requestPortResult = none
      ∨ wConnEnvCancel.openThrows = true)
    ∧ ((PM3WebUSB.connect wConnEnvCancel wPM3Idle).returned = false
      ∧ (PM3WebUSB.connect wConnEnvCancel wPM3Idle).readLoopStarted = false
      ∧ (PM3WebUSB.connect wConnEnvCancel wPM3Idle).txLoopStarted = false
      ∧ (PM3WebUSB.connect wConnEnvCancel wPM3Idle).state.isConnected = false) :=
  ⟨rfl, Or.inr (Or.inl rfl),
    connect_failure_contract wConnEnvCancel wPM3Idle rfl (Or.inr (Or.inl rfl))⟩

/-- C6 counterexample: with every accessor present except the capacity
accessor, `init` throws a `TypeError` (`getExport('pm3_uart_rb_capacity')()`
calls `undefined`) instead of failing gracefully, and it has already bound
the heap when it throws, so the channels are not left unusable.  This
refutes "fails as a whole ... without throwing whenever any required
accessor is missing". -/
theorem init_missing_capacity_counterexample :
    (UartShared.init freshUart mNoCap).2 = true
    ∧ (UartShared.init freshUart mNoCap).1.heapU8 = some [0, 0, 0, 0] := by
  decide

/-- C6 (amended): binding fails gracefully (early return, no fields
assigned, channels unusable, no throw) only when the heap or the rx
head-pointer accessor is missing.  When any other required accessor —
capacity, rx tail, rx buffer, tx head, tx tail or tx buffer — is missing,
`init` throws a `TypeError` to its caller, having already assigned the
fields up to that point (in particular the heap).  When all required
accessors are present and exactly the optional stdin head accessor is
missing, `init` completes normally with stdin forwarding disabled. -/
theorem init_binding_contract (st : UartShared) (m : ModuleExports) :
    (m.HEAPU8 = none → UartShared.init st m = (st, false))
    ∧ (∀ h8, m.HEAPU8 = some h8 → m.rx_head_ptr = none →
        UartShared.init st m = (st, false))
    ∧ (∀ h8 p, m.HEAPU8 = some h8 → m.rx_head_ptr = some p → m.rb_capacity = none →
        UartShared.init st m = ({ st with heapU8 := some h8 }, true))
    ∧ (∀ h8 p c, m.HEAPU8 = some h8 → m.rx_head_ptr = some p → m.rb_capacity = some c →
        m.rx_tail_ptr = none → (UartShared.init st m).2 = true)
    ∧ (∀ h8 p c v1, m.HEAPU8 = some h8 → m.rx_head_ptr = some p →
        m.rb_capacity = some c → m.rx_tail_ptr = some v1 → m.rx_buf_ptr = none →
        (UartShared.init st m).2 = true)
    ∧ (∀ h8 p c v1 v2, m.HEAPU8 = some h8 → m.rx_head_ptr = some p →
        m.rb_capacity = some c → m.rx_tail_ptr = some v1 → m.rx_buf_ptr = some v2 →
        m.tx_head_ptr = none → (UartShared.init st m).2 = true)
    ∧ (∀ h8 p c v1 v2 u1, m.HEAPU8 = some h8 → m.rx_head_ptr = some p →
        m.rb_capacity = some c → m.rx_tail_ptr = some v1 → m.rx_buf_ptr = some v2 →
        m.tx_head_ptr = some u1 → m.tx_tail_ptr = none →
        (UartShared.init st m).2 = true)
    ∧ (∀ h8 p c v1 v2 u1 u2, m.HEAPU8 = some h8 → m.rx_head_ptr = some p →
        m.rb_capacity = some c → m.rx_tail_ptr = some v1 → m.rx_buf_ptr = some v2 →
        m.tx_head_ptr = some u1 → m.tx_tail_ptr = some u2 → m.tx_buf_ptr = none →
        (UartShared.init st m).2 = true)
    ∧ (∀ h8 p c v1 v2 u1 u2 u3, m.HEAPU8 = some h8 → m.rx_head_ptr = some p →
        m.rb_capacity = some c → m.rx_tail_ptr = some v1 → m.rx_buf_ptr = some v2 →
        m.tx_head_ptr = some u1 → m.tx_tail_ptr = some u2 → m.tx_buf_ptr = some u3 →
        m.stdin_head_ptr = none →
        (UartShared.init st m).2 = false
        ∧ (UartShared.init st m).1.heapU8 = some h8
        ∧ (UartShared.init st m).1.capacity = c
        ∧ (UartShared.init st m).1.stdinHeadIdx = st.stdinHeadIdx) := by
  refine ⟨?_, ?_, ?_, ?_, ?_, ?_, ?_, ?_, ?_⟩
  · intro h1
    unfold UartShared.init
    rw [h1]
  · intro h8 h1 h2
    unfold UartShared.init
    rw [h1, h2]
  · intro h8 p h1 h2 h3
    unfold UartShared.init
    rw [h1, h2, h3]
  · intro h8 p c h1 h2 h3 h4
    unfold UartShared.init
    rw [h1, h2, h3, h4]
  · intro h8 p c v1 h1 h2 h3 h4 h5
    unfold UartShared.init
    rw [h1, h2, h3, h4, h5]
  · intro h8 p c v1 v2 h1 h2 h3 h4 h5 h6
    unfold UartShared.init
    rw [h1, h2, h3, h4, h5, h6]
  · intro h8 p c v1 v2 u1 h1 h2 h3 h4 h5 h6 h7
    unfold UartShared.init
    rw [h1, h2, h3, h4, h5, h6, h7]
  · intro h8 p c v1 v2 u1 u2 h1 h2 h3 h4 h5 h6 h7 h8e
    unfold UartShared.init
    rw [h1, h2, h3, h4, h5, h6, h7, h8e]
  · intro h8 p c v1 v2 u1 u2 u3 h1 h2 h3 h4 h5 h6 h7 h8e h9
    unfold UartShared.init
    rw [h1, h2, h3, h4, h5, h6, h7, h8e, h9]
    cases hri : m.rx_initialized_ptr <;> exact ⟨rfl, rfl, rfl, rfl⟩

/-- C6 witness: a module with no heap fails gracefully; a module missing
only the optional stdin triple binds successfully with stdin disabled. -/
theorem init_binding_contract_witness :
    mNoHeap.HEAPU8 = none
    ∧ UartShared.init freshUart mNoHeap = (freshUart, false)
    ∧ mNoStdin.stdin_head_ptr = none
    ∧ ((UartShared.init freshUart mNoStdin).2 = false
      ∧ (UartShared.init freshUart mNoStdin).1.heapU8 = some (List.replicate 36 0)
      ∧ (UartShared.init freshUart mNoStdin).1.capacity = 4
      ∧ (UartShared.init freshUart mNoStdin).1.stdinHeadIdx = freshUart.stdinHeadIdx) :=
  ⟨rfl, (init_binding_contract freshUart mNoHeap).1 rfl, rfl,
    (init_binding_contract freshUart mNoStdin).2.2.2.2.2.2.2.2
      (List.replicate 36 0) 0 4 4 24 8 12 28 rfl rfl rfl rfl rfl rfl rfl rfl rfl⟩

/-- C10: Stdin byte truncation: for every value `char` passed to
`pushStdin` (as `sendCommand`/`sendInput` do with raw UTF-16 code units from
`charCodeAt`), the byte actually stored in the stdin ring is `char mod 256`
— the queue gains exactly that one truncated byte, nothing is rejected and
nothing is split into multiple bytes. -/
theorem stdin_truncation (st : UartShared) (h8 q : List Nat) (sH char : Nat)
    (hheap : st.heapU8 = some h8) (hsH : st.stdinHeadIdx = some sH)
    (ok : ChanOk h8 st.capacity sH st.stdinTailIdx st.stdinBufByteOffset)
    (hq : q = chanQ h8 st.capacity sH st.stdinTailIdx st.stdinBufByteOffset)
    (hfree : q.length < st.capacity) :
    ∃ h8f,
      (st.pushStdin char).heapU8 = some h8f
      ∧ byteAt h8f (st.stdinBufByteOffset + ld32 h8 sH % st.capacity) = char % 256
      ∧ chanQ h8f st.capacity sH st.stdinTailIdx st.stdinBufByteOffset
          = q ++ [char % 256]
      ∧ sendInput true st char = st.pushStdin char := by
  obtain ⟨hp, cap, rH, rT, rB, rI, tH, tT, tB, sH0, sT, sB⟩ := st
  dsimp only at hheap hsH ok hq hfree ⊢
  subst hheap
  subst hsH
  obtain ⟨hpart, _⟩ := pushStdin_spec h8 cap rH rT rB rI tH tT tB sH sT sB char q ok hq
  obtain ⟨h8f, heq, _, _, _, _, hstored, hqueue, _, _⟩ := hpart hfree
  refine ⟨h8f, ?_, hstored, hqueue, rfl⟩
  rw [heq]

/-- C10 witness: the snowman code unit 9731 is stored as its low byte 3 in
the stdin ring of a concrete bound state. -/
theorem stdin_truncation_witness :
    wFull.heapU8 = some wFullHeap ∧ wFull.stdinHeadIdx = some 4
    ∧ ChanOk wFullHeap wFull.capacity 4 wFull.stdinTailIdx wFull.stdinBufByteOffset
    ∧ ([] : List Nat) = chanQ wFullHeap wFull.capacity 4 wFull.stdinTailIdx
        wFull.stdinBufByteOffset
    ∧ ([] : List Nat).length < wFull.capacity
    ∧ (9731 : Nat) % 256 = 3
    ∧ (∃ h8f,
        (wFull.pushStdin 9731).heapU8 = some h8f
        ∧ byteAt h8f (wFull.stdinBufByteOffset + ld32 wFullHeap 4 % wFull.capacity)
            = 9731 % 256
        ∧ chanQ h8f wFull.capacity 4 wFull.stdinTailIdx wFull.stdinBufByteOffset
            = [] ++ [9731 % 256]
        ∧ sendInput true wFull 9731 = wFull.pushStdin 9731) :=
  ⟨rfl, rfl, by decide, by decide, by decide, by decide,
    stdin_truncation wFull wFullHeap [] 4 9731 rfl rfl (by decide) (by decide) (by decide)⟩

/-- C2 counterexample: a TX channel holding 2 bytes, `maxBytes = 2` and an
`out` buffer of length 1.  The claim predicts `min(available, maxBytes,
len(out)) = 1` byte copied, `tail` advanced by 1 and 1 returned; the code
instead clamps only to `min(available, maxBytes) = 2` and `out.set` throws a
`RangeError` (`none`): no count is returned. -/
theorem popTx_out_clamp_counterexample :
    cexPopSt.popTx 2 [7] = none
    ∧ min (min (sub32 (ld32 cexPopHeap 0) (ld32 cexPopHeap 1)) 2)
        ([7] : List Nat).length = 1 := by
  constructor
  · decide
  · decide

/-- C2 (amended): `popTx(maxBytes, out)` computes `available = (head − tail)
mod 2^32`, clamps it to `min(available, maxBytes)` — not to `len(out)` —
copies that many bytes from `tail mod capacity` into `out` (split on
wraparound), advances `tail` by the count and returns it, provided `out` can
hold them; when `len(out)` is smaller than the clamped count the call throws
a `RangeError` with `tail` unchanged.  When `available = 0` it returns 0
with no side effect at all, repeatable any number of times. -/
theorem popTx_contract (st : UartShared) (h8 out q : List Nat) (maxBytes n : Nat)
    (hheap : st.heapU8 = some h8)
    (ok : ChanOk h8 st.capacity st.txHeadIdx st.txTailIdx st.txBufByteOffset)
    (hq : q = chanQ h8 st.capacity st.txHeadIdx st.txTailIdx st.txBufByteOffset)
    (hn : n = min q.length maxBytes) :
    (q.length = 0 → st.popTx maxBytes out = some (st, out, 0))
    ∧ (0 < q.length → n ≤ out.length → ∃ st2 h8f out2,
        st.popTx maxBytes out = some (st2, out2, n)
        ∧ st2.heapU8 = some h8f
        ∧ st2.capacity = st.capacity
        ∧ ld32 h8f st.txHeadIdx = ld32 h8 st.txHeadIdx
        ∧ ld32 h8f st.txTailIdx = (ld32 h8 st.txTailIdx + n) % U32
        ∧ chanQ h8f st.capacity st.txHeadIdx st.txTailIdx st.txBufByteOffset
            = q.drop n
        ∧ out2.length = out.length
        ∧ out2.take n = q.take n
        ∧ out2.drop n = out.drop n)
    ∧ (0 < q.length → out.length < n → st.popTx maxBytes out = none) := by
  obtain ⟨hp, cap, rH, rT, rB, rI, tH, tT, tB, sH0, sT, sB⟩ := st
  dsimp only at hheap ok hq ⊢
  subst hheap
  obtain ⟨p1, p2, p3⟩ :=
    popTx_spec h8 cap rH rT rB rI tH tT tB sH0 sT sB maxBytes out q n ok hq hn
  refine ⟨p1, ?_, p3⟩
  intro hpos hout
  obtain ⟨h8f, out2, heq, _, _, hH, hT, hqe, hlen, htk, hdr, _, _⟩ := p2 hpos hout
  exact ⟨_, h8f, out2, heq, rfl, rfl, hH, hT, hqe, hlen, htk, hdr⟩

/-- C2 witness: popping 2 bytes from a concrete TX channel holding
`[10, 11]` into an adequate buffer. -/
theorem popTx_contract_witness :
    cexPopSt.heapU8 = some cexPopHeap
    ∧ ChanOk cexPopHeap cexPopSt.capacity cexPopSt.txHeadIdx cexPopSt.txTailIdx
        cexPopSt.txBufByteOffset
    ∧ ([10, 11] : List Nat) = chanQ cexPopHeap cexPopSt.capacity cexPopSt.txHeadIdx
        cexPopSt.txTailIdx cexPopSt.txBufByteOffset
    ∧ (2 : Nat) = min ([10, 11] : List Nat).length 2
    ∧ 0 < ([10, 11] : List Nat).length
    ∧ (2 : Nat) ≤ ([0, 0] : List Nat).length
    ∧ (∃ st2 h8f out2,
        cexPopSt.popTx 2 [0, 0] = some (st2, out2, 2)
        ∧ st2.heapU8 = some h8f
        ∧ st2.capacity = cexPopSt.capacity
        ∧ ld32 h8f cexPopSt.txHeadIdx = ld32 cexPopHeap cexPopSt.txHeadIdx
        ∧ ld32 h8f cexPopSt.txTailIdx = (ld32 cexPopHeap cexPopSt.txTailIdx + 2) % U32
        ∧ chanQ h8f cexPopSt.capacity cexPopSt.txHeadIdx cexPopSt.txTailIdx
            cexPopSt.txBufByteOffset = ([10, 11] : List Nat).drop 2
        ∧ out2.length = ([0, 0] : List Nat).length
        ∧ out2.take 2 = ([10, 11] : List Nat).take 2
        ∧ out2.drop 2 = ([0, 0] : List Nat).drop 2) :=
  ⟨rfl, by decide, by decide, by decide, by decide, by decide,
    (popTx_contract cexPopSt cexPopHeap [0, 0] [10, 11] 2 2 rfl (by decide) (by decide)
      (by decide)).2.1 (by decide) (by decide)⟩

/-- C3 counterexample: scenario B — capacity 8, empty channel, 10-byte
input.  The claim says the call returns the written count 8 to its caller;
`pushRx` returns `undefined`, and the only value it reports is the
`console.warn` dropped-byte count 2, never 8. -/
theorem pushRx_return_counterexample :
    Option.map Prod.snd (cexPushSt.pushRx [0, 1, 2, 3, 4, 5, 6, 7, 8, 9])
      = some (some 2)
    ∧ (some (some 2) : Option (Option Nat)) ≠ some (some 8) := by
  constructor
  · unfold cexPushSt
    obtain ⟨h8f, heq, _⟩ :=
      pushRx_spec cexPushHeap [0, 1, 2, 3, 4, 5, 6, 7, 8, 9] [] 8 8 0 1 8 none
        0 1 8 none 0 0 (by decide) (by decide) (by decide)
    rw [heq]
    rfl
  · decide

/-- C3 (amended): `pushRx(bytes)` copies exactly `written = min(free,
len(bytes))` bytes — the first `written` bytes of the input, in order — into
the ring starting at `head mod capacity` (split on wraparound), advances
`head` by `written`, drops the remaining bytes, and neither blocks nor
throws.  It returns no value to its caller: when bytes are dropped the
written count is only observable through the logged warning, which carries
the dropped count `len(bytes) − written`. -/
theorem pushRx_contract (st : UartShared) (h8 src q : List Nat) (w : Nat)
    (hheap : st.heapU8 = some h8)
    (ok : ChanOk h8 st.capacity st.rxHeadIdx st.rxTailIdx st.rxBufByteOffset)
    (hq : q = chanQ h8 st.capacity st.rxHeadIdx st.rxTailIdx st.rxBufByteOffset)
    (hw : w = min (st.capacity - q.length) src.length) :
    ∃ st2 h8f,
      st.pushRx src = some (st2,
        if w < src.length then some (src.length - w) else none)
      ∧ st2.heapU8 = some h8f
      ∧ st2.capacity = st.capacity
      ∧ ld32 h8f st.rxTailIdx = ld32 h8 st.rxTailIdx
      ∧ ld32 h8f st.rxHeadIdx = (ld32 h8 st.rxHeadIdx + w) % U32
      ∧ chanQ h8f st.capacity st.rxHeadIdx st.rxTailIdx st.rxBufByteOffset
          = q ++ (src.take w).map (fun b => b % 256) := by
  obtain ⟨hp, cap, rH, rT, rB, rI, tH, tT, tB, sH0, sT, sB⟩ := st
  dsimp only at hheap ok hq hw ⊢
  subst hheap
  obtain ⟨h8f, heq, _, _, htl2, hhd2, hqe, _, _⟩ :=
    pushRx_spec h8 src q w cap rH rT rB rI tH tT tB sH0 sT sB ok hq hw
  exact ⟨_, h8f, heq, rfl, rfl, htl2, hhd2, hqe⟩

/-- C3 witness: scenario B at the concrete capacity-8 state — 8 of 10 bytes
are accepted in order, and the warning reports the 2 dropped. -/
theorem pushRx_contract_witness :
    cexPushSt.heapU8 = some cexPushHeap
    ∧ ChanOk cexPushHeap cexPushSt.capacity cexPushSt.rxHeadIdx cexPushSt.rxTailIdx
        cexPushSt.rxBufByteOffset
    ∧ ([] : List Nat) = chanQ cexPushHeap cexPushSt.capacity cexPushSt.rxHeadIdx
        cexPushSt.rxTailIdx cexPushSt.rxBufByteOffset
    ∧ (8 : Nat) = min (cexPushSt.capacity - ([] : List Nat).length)
        ([0, 1, 2, 3, 4, 5, 6, 7, 8, 9] : List Nat).length
    ∧ (∃ st2 h8f,
        cexPushSt.pushRx [0, 1, 2, 3, 4, 5, 6, 7, 8, 9] = some (st2,
          if 8 < ([0, 1, 2, 3, 4, 5, 6, 7, 8, 9] : List Nat).length then
            some (([0, 1, 2, 3, 4, 5, 6, 7, 8, 9] : List Nat).length - 8) else none)
        ∧ st2.heapU8 = some h8f
        ∧ st2.capacity = cexPushSt.capacity
        ∧ ld32 h8f cexPushSt.rxTailIdx = ld32 cexPushHeap cexPushSt.rxTailIdx
        ∧ ld32 h8f cexPushSt.rxHeadIdx
            = (ld32 cexPushHeap cexPushSt.rxHeadIdx + 8) % U32
        ∧ chanQ h8f cexPushSt.capacity cexPushSt.rxHeadIdx cexPushSt.rxTailIdx
            cexPushSt.rxBufByteOffset
            = [] ++ (([0, 1, 2, 3, 4, 5, 6, 7, 8, 9] : List Nat).take 8).map
                (fun b => b % 256)) :=
  ⟨rfl, by decide, by decide, by decide,
    pushRx_contract cexPushSt cexPushHeap [0, 1, 2, 3, 4, 5, 6, 7, 8, 9] [] 8 rfl
      (by decide) (by decide) (by decide)⟩

/-- C4: Queue-bound invariant: each ring operation preserves
`(head − tail) mod 2^32 ≤ capacity` — for `pushRx` and `pushStdin` this is
part of the well-formedness they re-establish, and for `popTx` it holds in
every returning case — and no operation ever modifies the `capacity`
field. -/
theorem queue_bound_invariant (st : UartShared) (h8 src out : List Nat) (c maxB : Nat)
    (hheap : st.heapU8 = some h8) :
    (ChanOk h8 st.capacity st.rxHeadIdx st.rxTailIdx st.rxBufByteOffset →
      ∃ st2 warn h8f, st.pushRx src = some (st2, warn) ∧ st2.heapU8 = some h8f
        ∧ sub32 (ld32 h8f st.rxHeadIdx) (ld32 h8f st.rxTailIdx) ≤ st.capacity
        ∧ st2.capacity = st.capacity)
    ∧ (∀ sH, st.stdinHeadIdx = some sH →
        ChanOk h8 st.capacity sH st.stdinTailIdx st.stdinBufByteOffset →
        ∃ h8f, (st.pushStdin c).heapU8 = some h8f
          ∧ sub32 (ld32 h8f sH) (ld32 h8f st.stdinTailIdx) ≤ st.capacity
          ∧ (st.pushStdin c).capacity = st.capacity)
    ∧ (ChanOk h8 st.capacity st.txHeadIdx st.txTailIdx st.txBufByteOffset →
        ∀ st2 out2 n, st.popTx maxB out = some (st2, out2, n) →
        ∃ h8f, st2.heapU8 = some h8f
          ∧ sub32 (ld32 h8f st.txHeadIdx) (ld32 h8f st.txTailIdx) ≤ st.capacity
          ∧ st2.capacity = st.capacity) := by
  obtain ⟨hp, cap, rH, rT, rB, rI, tH, tT, tB, sH0, sT, sB⟩ := st
  dsimp only at hheap ⊢
  subst hheap
  refine ⟨?_, ?_, ?_⟩
  · intro ok
    obtain ⟨h8f, heq, _, okf, _, _, _, _, _⟩ :=
      pushRx_spec h8 src (chanQ h8 cap rH rT rB)
        (min (cap - (chanQ h8 cap rH rT rB).length) src.length) cap rH rT rB rI
        tH tT tB sH0 sT sB ok rfl rfl
    exact ⟨_, _, h8f, heq, rfl, ChanOk_used okf, rfl⟩
  · intro sH hsome ok
    subst hsome
    obtain ⟨part1, part2⟩ :=
      pushStdin_spec h8 cap rH rT rB rI tH tT tB sH sT sB c (chanQ h8 cap sH sT sB)
        ok rfl
    by_cases hfree : (chanQ h8 cap sH sT sB).length < cap
    · obtain ⟨h8f, heq, _, okf, _, _, _, _, _, _⟩ := part1 hfree
      refine ⟨h8f, ?_, ChanOk_used okf, ?_⟩
      · rw [heq]
      · rw [heq]
    · rw [part2 (by omega)]
      exact ⟨h8, rfl, ChanOk_used ok, rfl⟩
  · intro ok st2 out2 n hpop
    obtain ⟨p1, p2, p3⟩ :=
      popTx_spec h8 cap rH rT rB rI tH tT tB sH0 sT sB maxB out
        (chanQ h8 cap tH tT tB) (min (chanQ h8 cap tH tT tB).length maxB) ok rfl rfl
    by_cases hq0 : (chanQ h8 cap tH tT tB).length = 0
    · have he := (p1 hq0).symm.trans hpop
      simp only [Option.some.injEq, Prod.mk.injEq] at he
      obtain ⟨hs, _, _⟩ := he
      subst hs
      exact ⟨h8, rfl, ChanOk_used ok, rfl⟩
    · by_cases hout : min (chanQ h8 cap tH tT tB).length maxB ≤ out.length
      · obtain ⟨h8f, out2', heq, _, okf, _, _, _, _, _, _, _, _⟩ :=
          p2 (by omega) hout
        have he := heq.symm.trans hpop
        simp only [Option.some.injEq, Prod.mk.injEq] at he
        obtain ⟨hs, _, _⟩ := he
        subst hs
        exact ⟨h8f, rfl, ChanOk_used okf, rfl⟩
      · have he := (p3 (by omega) (by omega)).symm.trans hpop
        exact absurd he (by simp)

/-- C4 witness: the three operations at a concrete fully-bound state. -/
theorem queue_bound_invariant_witness :
    wFull.heapU8 = some wFullHeap
    ∧ ChanOk wFullHeap wFull.capacity wFull.rxHeadIdx wFull.rxTailIdx
        wFull.rxBufByteOffset
    ∧ wFull.stdinHeadIdx = some 4
    ∧ ChanOk wFullHeap wFull.capacity 4 wFull.stdinTailIdx wFull.stdinBufByteOffset
    ∧ ChanOk wFullHeap wFull.capacity wFull.txHeadIdx wFull.txTailIdx
        wFull.txBufByteOffset
    ∧ wFull.popTx 5 [0, 0] = some (wFull, [0, 0], 0)
    ∧ (∃ st2 warn h8f, wFull.pushRx [1, 2] = some (st2, warn)
        ∧ st2.heapU8 = some h8f
        ∧ sub32 (ld32 h8f wFull.rxHeadIdx) (ld32 h8f wFull.rxTailIdx) ≤ wFull.capacity
        ∧ st2.capacity = wFull.capacity)
    ∧ (∃ h8f, (wFull.pushStdin 66).heapU8 = some h8f
        ∧ sub32 (ld32 h8f 4) (ld32 h8f wFull.stdinTailIdx) ≤ wFull.capacity
        ∧ (wFull.pushStdin 66).capacity = wFull.capacity)
    ∧ (∃ h8f, wFull.heapU8 = some h8f
        ∧ sub32 (ld32 h8f wFull.txHeadIdx) (ld32 h8f wFull.txTailIdx) ≤ wFull.capacity
        ∧ wFull.capacity = wFull.capacity) :=
  ⟨rfl, by decide, rfl, by decide, by decide, by decide,
    (queue_bound_invariant wFull wFullHeap [1, 2] [0, 0] 66 5 rfl).1 (by decide),
    (queue_bound_invariant wFull wFullHeap [1, 2] [0, 0] 66 5 rfl).2.1 4 rfl (by decide),
    (queue_bound_invariant wFull wFullHeap [1, 2] [0, 0] 66 5 rfl).2.2 (by decide)
      wFull [0, 0] 0 (by decide)⟩

/-- C8: Single-writer frame discipline: `pushRx` and `pushStdin` store only
their channel's head counter and bytes inside their own channel's buffer
region — the tail counter, every counter cell outside the written region,
and every byte outside the region and the head cell are unchanged — and
`popTx` stores only the TX tail counter, leaving the TX head and every
other heap byte (in particular the counters and buffers of all other
channels) unchanged. -/
theorem single_writer_frame (st : UartShared) (h8 src out : List Nat) (c maxB : Nat)
    (hheap : st.heapU8 = some h8) :
    (ChanOk h8 st.capacity st.rxHeadIdx st.rxTailIdx st.rxBufByteOffset →
      ∃ st2 warn h8f, st.pushRx src = some (st2, warn)
        ∧ st2 = { st with heapU8 := some h8f }
        ∧ ld32 h8f st.rxTailIdx = ld32 h8 st.rxTailIdx
        ∧ (∀ j, (4 * j + 4 ≤ st.rxBufByteOffset ∨
              st.rxBufByteOffset + st.capacity ≤ 4 * j) → j ≠ st.rxHeadIdx →
            ld32 h8f j = ld32 h8 j)
        ∧ (∀ k, (k < st.rxBufByteOffset ∨ st.rxBufByteOffset + st.capacity ≤ k) →
            (k < 4 * st.rxHeadIdx ∨ 4 * st.rxHeadIdx + 4 ≤ k) →
            byteAt h8f k = byteAt h8 k))
    ∧ (∀ sH, st.stdinHeadIdx = some sH →
        ChanOk h8 st.capacity sH st.stdinTailIdx st.stdinBufByteOffset →
        ∃ h8f, st.pushStdin c = { st with heapU8 := some h8f }
          ∧ ld32 h8f st.stdinTailIdx = ld32 h8 st.stdinTailIdx
          ∧ (∀ j, (4 * j + 4 ≤ st.stdinBufByteOffset ∨
                st.stdinBufByteOffset + st.capacity ≤ 4 * j) → j ≠ sH →
              ld32 h8f j = ld32 h8 j)
          ∧ (∀ k, (k < st.stdinBufByteOffset ∨
                st.stdinBufByteOffset + st.capacity ≤ k) →
              (k < 4 * sH ∨ 4 * sH + 4 ≤ k) → byteAt h8f k = byteAt h8 k))
    ∧ (ChanOk h8 st.capacity st.txHeadIdx st.txTailIdx st.txBufByteOffset →
        ∀ st2 out2 n, st.popTx maxB out = some (st2, out2, n) →
        ∃ h8f, st2 = { st with heapU8 := some h8f }
          ∧ ld32 h8f st.txHeadIdx = ld32 h8 st.txHeadIdx
          ∧ (∀ j, j ≠ st.txTailIdx → ld32 h8f j = ld32 h8 j)
          ∧ (∀ k, (k < 4 * st.txTailIdx ∨ 4 * st.txTailIdx + 4 ≤ k) →
              byteAt h8f k = byteAt h8 k)) := by
  obtain ⟨hp, cap, rH, rT, rB, rI, tH, tT, tB, sH0, sT, sB⟩ := st
  dsimp only at hheap ⊢
  subst hheap
  refine ⟨?_, ?_, ?_⟩
  · intro ok
    obtain ⟨h8f, heq, _, _, htl2, _, _, hldf, hbf⟩ :=
      pushRx_spec h8 src (chanQ h8 cap rH rT rB)
        (min (cap - (chanQ h8 cap rH rT rB).length) src.length) cap rH rT rB rI
        tH tT tB sH0 sT sB ok rfl rfl
    exact ⟨_, _, h8f, heq, rfl, htl2, hldf, hbf⟩
  · intro sH hsome ok
    subst hsome
    obtain ⟨part1, part2⟩ :=
      pushStdin_spec h8 cap rH rT rB rI tH tT tB sH sT sB c (chanQ h8 cap sH sT sB)
        ok rfl
    by_cases hfree : (chanQ h8 cap sH sT sB).length < cap
    · obtain ⟨h8f, heq, _, _, htl2, _, _, _, hldf, hbf⟩ := part1 hfree
      exact ⟨h8f, heq, htl2, hldf, hbf⟩
    · rw [part2 (by omega)]
      exact ⟨h8, rfl, rfl, fun j _ _ => rfl, fun k _ _ => rfl⟩
  · intro ok st2 out2 n hpop
    obtain ⟨p1, p2, p3⟩ :=
      popTx_spec h8 cap rH rT rB rI tH tT tB sH0 sT sB maxB out
        (chanQ h8 cap tH tT tB) (min (chanQ h8 cap tH tT tB).length maxB) ok rfl rfl
    by_cases hq0 : (chanQ h8 cap tH tT tB).length = 0
    · have he := (p1 hq0).symm.trans hpop
      simp only [Option.some.injEq, Prod.mk.injEq] at he
      obtain ⟨hs, _, _⟩ := he
      subst hs
      exact ⟨h8, rfl, rfl, fun j _ => rfl, fun k _ => rfl⟩
    · by_cases hout : min (chanQ h8 cap tH tT tB).length maxB ≤ out.length
      · obtain ⟨h8f, out2', heq, _, _, hH2, _, _, _, _, _, hldf, hbf⟩ :=
          p2 (by omega) hout
        have he := heq.symm.trans hpop
        simp only [Option.some.injEq, Prod.mk.injEq] at he
        obtain ⟨hs, _, _⟩ := he
        subst hs
        exact ⟨h8f, rfl, hH2, hldf, hbf⟩
      · have he := (p3 (by omega) (by omega)).symm.trans hpop
        exact absurd he (by simp)

/-- C8 witness: the three operations at a concrete fully-bound state with
three disjoint channels. -/
theorem single_writer_frame_witness :
    wFull.heapU8 = some wFullHeap
    ∧ ChanOk wFullHeap wFull.capacity wFull.rxHeadIdx wFull.rxTailIdx
        wFull.rxBufByteOffset
    ∧ wFull.stdinHeadIdx = some 4
    ∧ ChanOk wFullHeap wFull.capacity 4 wFull.stdinTailIdx wFull.stdinBufByteOffset
    ∧ ChanOk wFullHeap wFull.capacity wFull.txHeadIdx wFull.txTailIdx
        wFull.txBufByteOffset
    ∧ wFull.popTx 5 [0, 0] = some (wFull, [0, 0], 0)
    ∧ (∃ st2 warn h8f, wFull.pushRx [1, 2] = some (st2, warn)
        ∧ st2 = { wFull with heapU8 := some h8f }
        ∧ ld32 h8f wFull.rxTailIdx = ld32 wFullHeap wFull.rxTailIdx
        ∧ (∀ j, (4 * j + 4 ≤ wFull.rxBufByteOffset ∨
              wFull.rxBufByteOffset + wFull.capacity ≤ 4 * j) → j ≠ wFull.rxHeadIdx →
            ld32 h8f j = ld32 wFullHeap j)
        ∧ (∀ k, (k < wFull.rxBufByteOffset ∨
              wFull.rxBufByteOffset + wFull.capacity ≤ k) →
            (k < 4 * wFull.rxHeadIdx ∨ 4 * wFull.rxHeadIdx + 4 ≤ k) →
            byteAt h8f k = byteAt wFullHeap k))
    ∧ (∃ h8f, wFull.pushStdin 66 = { wFull with heapU8 := some h8f }
        ∧ ld32 h8f wFull.stdinTailIdx = ld32 wFullHeap wFull.stdinTailIdx
        ∧ (∀ j, (4 * j + 4 ≤ wFull.stdinBufByteOffset ∨
              wFull.stdinBufByteOffset + wFull.capacity ≤ 4 * j) → j ≠ 4 →
            ld32 h8f j = ld32 wFullHeap j)
        ∧ (∀ k, (k < wFull.stdinBufByteOffset ∨
              wFull.stdinBufByteOffset + wFull.capacity ≤ k) →
            (k < 4 * 4 ∨ 4 * 4 + 4 ≤ k) → byteAt h8f k = byteAt wFullHeap k))
    ∧ (∃ h8f, wFull = { wFull with heapU8 := some h8f }
        ∧ ld32 h8f wFull.txHeadIdx = ld32 wFullHeap wFull.txHeadIdx
        ∧ (∀ j, j ≠ wFull.txTailIdx → ld32 h8f j = ld32 wFullHeap j)
        ∧ (∀ k, (k < 4 * wFull.txTailIdx ∨ 4 * wFull.txTailIdx + 4 ≤ k) →
            byteAt h8f k = byteAt wFullHeap k)) :=
  ⟨rfl, by decide, rfl, by decide, by decide, by decide,
    (single_writer_frame wFull wFullHeap [1, 2] [0, 0] 66 5 rfl).1 (by decide),
    (single_writer_frame wFull wFullHeap [1, 2] [0, 0] 66 5 rfl).2.1 4 rfl (by decide),
    (single_writer_frame wFull wFullHeap [1, 2] [0, 0] 66 5 rfl).2.2 (by decide)
      wFull [0, 0] 0 (by decide)⟩

/-- C1: FIFO round-trip: over any sequence of pushes and pops on a single
channel (RX and TX descriptors bound to the same ring, starting empty),
every byte a push accepts is popped exactly once, in order — the
concatenation of all popped bytes extended by the bytes still queued equals
the concatenation of all accepted bytes, across arbitrarily many
wraparounds.  In particular, after only pushes totalling at most `capacity`
bytes, every byte is accepted and a single `popTx(capacity)` returns
exactly those bytes concatenated in original order. -/
theorem fifo_round_trip (st : UartShared) (h8 : List Nat) (ops : List ChanOp)
    (hheap : st.heapU8 = some h8)
    (htx : st.txHeadIdx = st.rxHeadIdx ∧ st.txTailIdx = st.rxTailIdx ∧
      st.txBufByteOffset = st.rxBufByteOffset)
    (ok : ChanOk h8 st.capacity st.rxHeadIdx st.rxTailIdx st.rxBufByteOffset)
    (hempty : chanQ h8 st.capacity st.rxHeadIdx st.rxTailIdx st.rxBufByteOffset = [])
    (hbytes : ∀ op ∈ ops, op.bytesOk = true) :
    ∃ stf h8f acc popped,
      runOps st ops = some (stf, acc, popped)
      ∧ stf.heapU8 = some h8f
      ∧ acc = popped
          ++ chanQ h8f st.capacity st.rxHeadIdx st.rxTailIdx st.rxBufByteOffset
      ∧ ((∀ op ∈ ops, op.isPush = true) → (pushConcat ops).length ≤ st.capacity →
          acc = pushConcat ops
          ∧ ∃ stg outg, stf.popTx st.capacity (List.replicate st.capacity 0)
              = some (stg, outg, acc.length) ∧ outg.take acc.length = acc) := by
  obtain ⟨hp, cap, rH, rT, rB, rI, tH, tT, tB, sH0, sT, sB⟩ := st
  dsimp only at hheap htx ok hempty ⊢
  subst hheap
  obtain ⟨e1, e2, e3⟩ := htx
  subst e1
  subst e2
  subst e3
  obtain ⟨h8f, acc, popped, hrun, okf, hinv, hlast⟩ :=
    runOps_spec ops h8 [] cap tH tT tB rI sH0 sT sB ok hempty.symm hbytes
  refine ⟨_, h8f, acc, popped, hrun, rfl, ?_, ?_⟩
  · simpa using hinv
  · intro hpush htot
    obtain ⟨hacc, hpop0⟩ := hlast hpush (by simpa using htot)
    refine ⟨hacc, ?_⟩
    have hqf : chanQ h8f cap tH tT tB = acc := by
      have h1 := hinv
      rw [hpop0] at h1
      simpa using h1.symm
    have hle : acc.length ≤ cap := by
      rw [hacc]
      exact htot
    obtain ⟨e1p, e2p, _⟩ :=
      popTx_spec h8f cap tH tT tB rI tH tT tB sH0 sT sB cap
        (List.replicate cap 0) acc acc.length okf hqf.symm (by omega)
    by_cases hacc0 : acc.length = 0
    · have haccnil : acc = [] := List.eq_nil_of_length_eq_zero hacc0
      subst haccnil
      exact ⟨_, _, e1p rfl, by simp⟩
    · obtain ⟨h8g, outg, heq, _, _, _, _, _, _, htakeg, _, _, _⟩ :=
        e2p (by omega) (by simp only [List.length_replicate]; omega)
      exact ⟨_, outg, heq, by rw [htakeg, List.take_length]⟩

/-- C1 witness: a concrete wrapping push/pop sequence on a capacity-4
channel starting empty. -/
theorem fifo_round_trip_witness :
    wUart.heapU8 = some wHeap
    ∧ (wUart.txHeadIdx = wUart.rxHeadIdx ∧ wUart.txTailIdx = wUart.rxTailIdx
      ∧ wUart.txBufByteOffset = wUart.rxBufByteOffset)
    ∧ ChanOk wHeap wUart.capacity wUart.rxHeadIdx wUart.rxTailIdx wUart.rxBufByteOffset
    ∧ chanQ wHeap wUart.capacity wUart.rxHeadIdx wUart.rxTailIdx
        wUart.rxBufByteOffset = []
    ∧ (∀ op ∈ wOps, op.bytesOk = true)
    ∧ (∃ stf h8f acc popped,
        runOps wUart wOps = some (stf, acc, popped)
        ∧ stf.heapU8 = some h8f
        ∧ acc = popped ++ chanQ h8f wUart.capacity wUart.rxHeadIdx wUart.rxTailIdx
            wUart.rxBufByteOffset
        ∧ ((∀ op ∈ wOps, op.isPush = true) →
            (pushConcat wOps).length ≤ wUart.capacity →
            acc = pushConcat wOps
            ∧ ∃ stg outg, stf.popTx wUart.capacity (List.replicate wUart.capacity 0)
                = some (stg, outg, acc.length) ∧ outg.take acc.length = acc)) :=
  ⟨rfl, ⟨rfl, rfl, rfl⟩, by decide, by decide, by decide,
    fifo_round_trip wUart wHeap wOps rfl ⟨rfl, rfl, rfl⟩ (by decide) (by decide)
      (by decide)⟩

/-- C1 counterexample: the sequence push `[1, 2]`, pop 1 on an empty
capacity-4 channel accepts `[1, 2]` but pops only `[1]` (byte 2 is still
queued, not lost).  So over all alternating push/pop sequences the popped
concatenation does not equal the accepted concatenation as stated; the
equality needs the still-queued suffix (or pops that drain the channel). -/
theorem fifo_literal_counterexample :
    Option.map Prod.snd (runOps wUart [ChanOp.push [1, 2], ChanOp.pop 1])
      = some ([1, 2], [1])
    ∧ ([1] : List Nat) ≠ [1, 2] := by
  constructor
  · obtain ⟨h8f, hpush, _, okf, _, _, hqf, _, _⟩ :=
      pushRx_spec wHeap [1, 2] [] 2 4 0 1 8 none 0 1 8 none 0 0
        (by decide) (by decide) (by decide)
    have hq2 : chanQ h8f 4 0 1 8 = [1, 2] := by
      simpa using hqf
    obtain ⟨_, p2, _⟩ :=
      popTx_spec h8f 4 0 1 8 none 0 1 8 none 0 0 1 (List.replicate 1 0) [1, 2] 1
        okf hq2.symm (by decide)
    obtain ⟨h8g, out2, hpop, _, _, _, _, _, _, htake, _, _, _⟩ :=
      p2 (by decide) (by decide)
    unfold wUart
    simp only [runOps]
    rw [hpush]
    dsimp only
    rw [hpop]
    dsimp only
    rw [htake]
    simp [droppedLen]
  · decide
